import Mathlib

/-!
# Portknock: a shallow embedding of the knock state engine and the firewall controller

The development follows the Go sources:

* `config/config.go`, `utils/config_utils.go`: configuration loading;
* `nftmanager/manager.go`: the firewall controller (`Manager`);
* `main.go`: the knock state engine (`KnockServer`) and the packet dispatcher.

Modelling conventions.

* An instant (`time.Time`) is an integer count of nanoseconds on one time line whose
  origin is the zero `time.Time`; a `time.Duration` is an integer count of nanoseconds.
  The wall clock and the monotonic clock are not told apart.  `time.Now()` is an explicit
  argument `now` of every function that reads the clock.
* `handleKnock` and `resetStateIfInvalidAccess` hold the mutex of their service from
  before they read the clock until they return, so the calls of one service form a
  sequence along which the clock readings never decrease; the model handles the calls in
  that order, one at a time.
* A Go map is a function into `Option`.  `stateMap` holds pointers in Go; every record is
  stored under exactly one key and every path that mutates a record through its pointer
  also stores it, so records are modelled as values.
* The netlink transport (`nftables.Conn`) is modelled by the rule set it manages
  (`Kernel`): staged messages are applied atomically by `Flush`.
* Log output is not modelled.
-/

namespace Portknock

/-! ## Time -/

/-- An instant: nanoseconds since the zero `time.Time`. -/
abbrev Time := Int

/-- A `time.Duration`: nanoseconds. -/
abbrev Duration := Int

/-- The Go method `Time.IsZero`. -/
def IsZero (t : Time) : Bool := decide (t = 0)

/-- The Go method `Time.After`: `After t u` is `t.After(u)`. -/
def After (t u : Time) : Bool := decide (u < t)

/-- Two's complement wrap-around of a 64-bit signed integer. -/
def wrapInt64 (x : Int) : Int := (x + 2 ^ 63) % 2 ^ 64 - 2 ^ 63

/-- The Go expression `time.Duration(n) * time.Second`. -/
def secondsToDuration (n : Int) : Duration := wrapInt64 (n * 1000000000)

/-! ## config/config.go -/

/-- The Go struct `config.ServiceConfig`. -/
structure ServiceConfig where
  Name : String
  KnockPorts : List Int
  AllowPort : Nat
  ExpireSeconds : Int
  Interface : String
  StepTimeoutSeconds : Int
  deriving DecidableEq, Repr

/-- The Go struct `config.Config`. -/
structure Config where
  Services : List ServiceConfig
  deriving DecidableEq, Repr

/-- Outcome of reading the configuration file and of `yaml.Unmarshal` on its bytes:
both are external to the repository, so their result is the input of the loaders. -/
inductive FileContent where
  | readError (msg : String)
  | yamlError (msg : String)
  | parsed (cfg : Config)
  deriving DecidableEq, Repr

/-- The Go function `config.LoadConfig`: read, unmarshal, then default every
non-positive `ExpireSeconds` to 300. -/
def LoadConfig (file : FileContent) : Except String Config :=
  match file with
  | .readError e => .error e
  | .yamlError e => .error e
  | .parsed cfg =>
    .ok { Services := cfg.Services.map fun svc =>
            if svc.ExpireSeconds ≤ 0 then { svc with ExpireSeconds := 300 } else svc }

/-- The Go method `Config.ParseYAML`: `yaml.Unmarshal` and nothing else. -/
def ParseYAML (file : FileContent) : Except String Config :=
  match file with
  | .readError e => .error e
  | .yamlError e => .error e
  | .parsed cfg => .ok cfg

/-- The Go function `utils.LoadAndValidateConfig`: read, `ParseYAML`, reject an empty
service list. -/
def LoadAndValidateConfig (file : FileContent) : Except String Config :=
  match file with
  | .readError e => .error e
  | _ =>
    match ParseYAML file with
    | .error e => .error e
    | .ok cfg =>
      if cfg.Services.length = 0 then .error "services list is empty" else .ok cfg

/-! ## nftmanager/manager.go -/

/-- The expressions the controller puts in its rules. -/
inductive Expr where
  /-- Network header byte 9 (the protocol) equals `proto`. -/
  | cmpProto (proto : Nat)
  /-- Network header bytes 12..15 (the IPv4 source) equal `ip`. -/
  | cmpSrcIP (ip : List Nat)
  /-- Transport header bytes 2..3 (the destination port) equal `hi, lo`. -/
  | cmpDstPort (hi lo : Nat)
  | verdictAccept
  | verdictDrop
  | verdictJump (chain : String)
  deriving DecidableEq, Repr

/-- A rule as committed in the table `portknock`. -/
structure Rule where
  Chain : String
  Handle : Nat
  Exprs : List Expr
  UserData : String
  deriving DecidableEq, Repr

/-- The two bytes `byte(port >> 8), byte(port & 0xff)`. -/
def portBytes (port : Int) : Nat × Nat :=
  (((port / 256) % 256).toNat, (port % 256).toNat)

/-- A message staged on the connection. -/
inductive Msg where
  /-- The call `conn.AddRule`: append at the end of the chain. -/
  | addRule (chain : String) (exprs : List Expr) (userData : String)
  /-- The call `conn.InsertRule`: insert at the head of the chain. -/
  | insertRule (chain : String) (exprs : List Expr) (userData : String)
  /-- The call `conn.DelRule`. -/
  | delRule (chain : String) (handle : Nat)
  deriving DecidableEq, Repr

/-- The rule set behind the netlink connection.  `rules` lists the rules of all chains of
the table; the rules of one chain appear in evaluation order.  `down` models a failing
transport: every request then returns an error. -/
structure Kernel where
  rules : List Rule
  nextHandle : Nat
  down : Bool
  deriving DecidableEq, Repr

/-- Effect of one staged message; `none` is a kernel error (deleting a rule that does
not exist). -/
def Kernel.applyMsg (k : Kernel) : Msg → Option Kernel
  | .addRule chain exprs ud =>
    some { k with rules := k.rules ++ [⟨chain, k.nextHandle, exprs, ud⟩],
                  nextHandle := k.nextHandle + 1 }
  | .insertRule chain exprs ud =>
    some { k with rules := ⟨chain, k.nextHandle, exprs, ud⟩ :: k.rules,
                  nextHandle := k.nextHandle + 1 }
  | .delRule chain handle =>
    if k.rules.any (fun r => r.Chain == chain && r.Handle == handle) then
      some { k with rules := k.rules.filter
                      (fun r => !(r.Chain == chain && r.Handle == handle)) }
    else none

/-- Apply the staged messages in order. -/
def Kernel.applyAll (k : Kernel) : List Msg → Option Kernel
  | [] => some k
  | msg :: rest =>
    match k.applyMsg msg with
    | none => none
    | some k1 => k1.applyAll rest

/-- The call `conn.Flush`: commit the staged batch atomically; `none` is an error and
then nothing is committed. -/
def Kernel.Flush (k : Kernel) (msgs : List Msg) : Option Kernel :=
  if k.down then none else k.applyAll msgs

/-- The call `conn.GetRules(table, chain)`; `none` is an error. -/
def Kernel.GetRules (k : Kernel) (chain : String) : Option (List Rule) :=
  if k.down then none else some (k.rules.filter (fun r => r.Chain == chain))

/-- The Go struct `RuleKey`. -/
structure RuleKey where
  IP : String
  Port : Int
  deriving DecidableEq, Repr

/-- The Go struct `Manager`.  `rulesByIP` stores the rule added for a key as the
controller knows it (chain and handle). -/
structure Manager where
  conn : Kernel
  rulesByIP : RuleKey → Option Rule
  blockedPorts : Int → Bool

/-- The state `NewManager` returns: the table has been deleted and recreated, so no rule
is left; `none` is the `panic` on a transport error. -/
def NewManager (k : Kernel) : Option Manager :=
  if k.down then none
  else some { conn := { rules := [], nextHandle := k.nextHandle, down := false },
              rulesByIP := fun _ => none,
              blockedPorts := fun _ => false }

/-- One decimal field of a dotted quad: one to three digits, no leading zero, at most
255. -/
def parseOctet (ds : List Char) : Option Nat :=
  let v := ds.foldl (fun acc c => acc * 10 + (c.toNat - 48)) 0
  if ds.length = 0 ∨ 3 < ds.length then none
  else if ds.any (fun c => !c.isDigit) then none
  else if ds.head? = some '0' ∧ 1 < ds.length then none
  else if 255 < v then none
  else some v

/-- Split a character list at every dot. -/
def splitDots : List Char → List (List Char)
  | [] => [[]]
  | c :: cs =>
    if c = '.' then [] :: splitDots cs
    else
      match splitDots cs with
      | [] => [[c]]
      | f :: fs => (c :: f) :: fs

/-- The Go expression `net.ParseIP(s).To4()` on dotted-quad text: the four bytes, or
`none` (Go nil).  The textual IPv6 forms that `net.ParseIP` also reads are not modelled;
the dispatcher passes `ip4.SrcIP.String()`, which is a dotted quad. -/
def ParseIPTo4 (s : String) : Option (List Nat) :=
  match splitDots s.data with
  | [a, b, c, d] =>
    match parseOctet a, parseOctet b, parseOctet c, parseOctet d with
    | some a, some b, some c, some d => some [a, b, c, d]
    | _, _, _, _ => none
  | _ => none

/-- The text `%s` prints for a four-byte `net.IP`. -/
def IPString (ip : List Nat) : String :=
  String.intercalate "." (ip.map fun b => toString b)

/-- The Go expression `fmt.Sprintf("service:%s,ip:%s,port:%d", name, ip, port)`. -/
def userDataOf (serviceName ip : String) (port : Int) : String :=
  "service:" ++ serviceName ++ ",ip:" ++ ip ++ ",port:" ++ toString port

/-- The Go function `strings.HasPrefix`. -/
def HasPrefix (s pre : String) : Bool := pre.data.isPrefixOf s.data

/-- The Go method `Manager.AllowIP`.  Returns the error (`none` is Go nil) and the
manager after the call. -/
def AllowIP (m : Manager) (serviceName srcIP : String) (port : Int) (expireSeconds : Int)
    (allowChain : String) : Option String × Manager :=
  let _ := expireSeconds
  match ParseIPTo4 srcIP with
  | none => (some "invalid ipv4", m)
  | some ip =>
    let key : RuleKey := ⟨srcIP, port⟩
    match m.conn.GetRules allowChain with
    | none => (some "get rules failed", m)
    | some rules =>
      let expected := userDataOf serviceName (IPString ip) port
      let found := rules.any (fun rule => HasPrefix rule.UserData expected)
      if found then (none, m)
      else
        let dels : List Msg :=
          match m.rulesByIP key with
          | some r => [Msg.delRule r.Chain r.Handle]
          | none => []
        let byIP : RuleKey → Option Rule := fun k => if k = key then none else m.rulesByIP k
        let exprs : List Expr :=
          [Expr.cmpSrcIP ip, Expr.cmpDstPort (portBytes port).1 (portBytes port).2,
           Expr.verdictAccept]
        let userData := userDataOf serviceName srcIP port
        match m.conn.Flush (dels ++ [Msg.addRule allowChain exprs userData]) with
        | none => (some "flush failed", { m with rulesByIP := byIP })
        | some k =>
          let rule : Rule := ⟨allowChain, m.conn.nextHandle, exprs, userData⟩
          (none, { m with conn := k,
                          rulesByIP := fun k => if k = key then some rule else byIP k })

/-- The Go method `Manager.RevokeIP`. -/
def RevokeIP (m : Manager) (serviceName ip : String) (port : Int) (allowChain : String) :
    Option String × Manager :=
  let key : RuleKey := ⟨ip, port⟩
  let m1 : Manager := { m with rulesByIP := fun k => if k = key then none else m.rulesByIP k }
  match m1.conn.GetRules allowChain with
  | none => (some "get rules failed", m1)
  | some rules =>
    let expected := userDataOf serviceName ip port
    let hits := rules.filter (fun rule => HasPrefix rule.UserData expected)
    if hits.isEmpty then (none, m1)
    else
      match m1.conn.Flush (hits.map fun rule => Msg.delRule rule.Chain rule.Handle) with
      | none => (some "flush failed", m1)
      | some k => (none, { m1 with conn := k })

/-- Number of committed rules of `chain` whose user data is exactly `ud`. -/
def countUserData (m : Manager) (chain ud : String) : Nat :=
  (m.conn.rules.filter (fun r => r.Chain == chain && r.UserData == ud)).length

/-- Name of the main chain, the chain `m.blockChain` refers to. -/
def mainChainName : String := "pkinput"

/-- The Go method `Manager.AddBlockRule`: nothing when the port is already marked as
blocked; otherwise a TCP drop rule and a UDP drop rule for the port are appended to the
main chain, and the port is marked before the batch is flushed. -/
def AddBlockRule (m : Manager) (serviceName : String) (port : Int) : Option String × Manager :=
  let _ := serviceName
  if m.blockedPorts port then (none, m)
  else
    let tcpRule : Msg := Msg.addRule mainChainName
      [Expr.cmpProto 6, Expr.cmpDstPort (portBytes port).1 (portBytes port).2,
       Expr.verdictDrop] ""
    let udpRule : Msg := Msg.addRule mainChainName
      [Expr.cmpProto 17, Expr.cmpDstPort (portBytes port).1 (portBytes port).2,
       Expr.verdictDrop] ""
    let m1 : Manager :=
      { m with blockedPorts := fun p => if p = port then true else m.blockedPorts p }
    match m.conn.Flush [tcpRule, udpRule] with
    | none => (some "flush failed", m1)
    | some k => (none, { m1 with conn := k })

/-- The Go method `Manager.CreateAllowChain`: the name of the new chain or the error, and
the manager after the call.  The chain `<service>_allow` is added and a rule that jumps
to it for TCP packets to `port` is inserted at the head of the main chain, in one batch.

The loop that deletes an existing chain of that name does not change the rule set and
is left out: `ListChains` returns every chain with a newly allocated `Table`, so the
pointer test `c.Table == m.table` is false; and a chain of that name that exists in this
table is the target of the jump rule an earlier call inserted, so the kernel refuses to
delete it, and the error of that first `Flush` is dropped.  `AddChain` adds no rule. -/
def CreateAllowChain (m : Manager) (serviceName : String) (port : Int) :
    Except String String × Manager :=
  let chainName := serviceName ++ "_allow"
  if m.conn.down then (.error "list chains failed", m)
  else
    let jumpRule : Msg := Msg.insertRule mainChainName
      [Expr.cmpProto 6, Expr.cmpDstPort (portBytes port).1 (portBytes port).2,
       Expr.verdictJump chainName] ("jump-" ++ chainName)
    match m.conn.Flush [jumpRule] with
    | none => (.error "flush failed", m)
    | some k => (.ok chainName, { m with conn := k })

/-! ## main.go: the knock state engine -/

/-- The Go struct `KnockState`.  The zero `AllowedUntil` means that no grant was ever
recorded. -/
structure KnockState where
  SeqIndex : Nat
  LastTime : Time
  AllowedUntil : Time
  deriving DecidableEq, Repr

/-- The mutable part of the Go struct `KnockServer` (the state map) together with its
configuration and the name of its allow chain.  The shared `*nftmanager.Manager` is
passed to the methods explicitly. -/
structure KnockServer where
  cfg : ServiceConfig
  stateMap : String → Option KnockState
  allowChain : String

/-- What a method of the state engine does to its collaborators. -/
inductive Action where
  /-- The call `s.nft.AllowIP(name, srcIP, port, expireSeconds, s.allowChain)`. -/
  | allowIP (serviceName srcIP : String) (port : Int) (expireSeconds : Int)
      (chain : String)
  /-- The goroutine that waits `after` and then calls
  `s.nft.RevokeIP(name, ip, port, s.allowChain)`. -/
  | spawnExpiry (after : Duration) (serviceName ip : String) (port : Int) (chain : String)
  deriving DecidableEq, Repr

/-- The Go function `contains`. -/
def contains : List Int → Int → Bool
  | [], _ => false
  | p :: ports, port => if p = port then true else contains ports port

/-- The map assignment `stateMap[srcIP] = state`. -/
def KnockServer.store (s : KnockServer) (srcIP : String) (state : KnockState) : KnockServer :=
  { s with stateMap := fun ip => if ip = srcIP then some state else s.stateMap ip }

/-- The map deletion `delete(stateMap, srcIP)`. -/
def KnockServer.delete (s : KnockServer) (srcIP : String) : KnockServer :=
  { s with stateMap := fun ip => if ip = srcIP then none else s.stateMap ip }

/-- The first statements of `handleKnock`: the stored record, or a fresh one
(all fields zero) when there is none or when
`now.Sub(state.LastTime) > globalTimeout`.  `time.Time.Sub` saturates at the ends of
the 64-bit range of `time.Duration`; `globalTimeout` lies in that range, so the
comparison is the plain one. -/
def loadState (s : KnockServer) (srcIP : String) (globalTimeout : Duration) (now : Time) :
    KnockState :=
  match s.stateMap srcIP with
  | none => ⟨0, 0, 0⟩
  | some st => if now - st.LastTime > globalTimeout then ⟨0, 0, 0⟩ else st

/-- The Go method `KnockServer.handleKnock`, with the clock reading `now`.  The result
is `none` when the index expression `KnockPorts[state.SeqIndex]` is out of range (a
run-time panic); otherwise the server and the manager after the call and the actions
taken. -/
def handleKnock (s : KnockServer) (nft : Manager) (srcIP : String) (dstPort : Int)
    (globalTimeout stepTimeout : Duration) (now : Time) :
    Option (KnockServer × Manager × List Action) :=
  let _ := stepTimeout
  let state : KnockState := loadState s srcIP globalTimeout now
  match s.cfg.KnockPorts[state.SeqIndex]? with
  | none => none
  | some expectPort =>
    if dstPort ≠ expectPort then
      if state.SeqIndex > 0 then
        some (s.store srcIP { state with SeqIndex := 0, LastTime := now }, nft, [])
      else some (s, nft, [])
    else
      let state : KnockState := { state with SeqIndex := state.SeqIndex + 1, LastTime := now }
      if state.SeqIndex = s.cfg.KnockPorts.length then
        let state : KnockState := { state with AllowedUntil := now + globalTimeout }
        let res := AllowIP nft s.cfg.Name srcIP s.cfg.AllowPort s.cfg.ExpireSeconds s.allowChain
        let call := Action.allowIP s.cfg.Name srcIP s.cfg.AllowPort s.cfg.ExpireSeconds
          s.allowChain
        let spawned : List Action :=
          match res.1 with
          | some _ => []
          | none => [Action.spawnExpiry globalTimeout s.cfg.Name srcIP s.cfg.AllowPort
              s.allowChain]
        some (s.store srcIP { state with SeqIndex := 0 }, res.2, call :: spawned)
      else some (s.store srcIP state, nft, [])

/-- The Go method `KnockServer.HandlePacket`. -/
def HandlePacket (s : KnockServer) (nft : Manager) (srcIP : String) (dstPort : Int)
    (now : Time) : Option (KnockServer × Manager × List Action) :=
  let knockPorts := s.cfg.KnockPorts
  let allowPort : Int := s.cfg.AllowPort
  let isRelevant : Bool := if dstPort = allowPort then true else contains knockPorts dstPort
  if !isRelevant then some (s, nft, [])
  else if dstPort = allowPort then some (s, nft, [])
  else if contains knockPorts dstPort then
    handleKnock s nft srcIP dstPort (secondsToDuration s.cfg.ExpireSeconds)
      (secondsToDuration s.cfg.StepTimeoutSeconds) now
  else some (s, nft, [])

/-- The Go method `KnockServer.resetStateIfInvalidAccess`, with the clock reading
`now`: the returned flag and the server after the call. -/
def resetStateIfInvalidAccess (s : KnockServer) (srcIP : String) (dstPort : Int)
    (now : Time) : Bool × KnockServer :=
  if dstPort = (s.cfg.AllowPort : Int) then (false, s)
  else if contains s.cfg.KnockPorts dstPort then (false, s)
  else
    match s.stateMap srcIP with
    | none => (false, s)
    | some state =>
      if IsZero state.AllowedUntil || After now state.AllowedUntil then
        (true, s.delete srcIP)
      else (true, s.store srcIP { state with SeqIndex := 0 })

/-! ## main.go: the packet dispatcher -/

/-- A captured packet that passed the filter of `runInterfaceListener`, with the clock
reading taken while it is handled. -/
structure Packet where
  srcIP : String
  dstPort : Int
  now : Time
  deriving DecidableEq, Repr

/-- The body of the loop over `servers` in `runInterfaceListener` for one server: a
packet to the allow port or to a knock port goes to `HandlePacket`, any other packet to
`resetStateIfInvalidAccess`. -/
def dispatch (s : KnockServer) (nft : Manager) (p : Packet) :
    Option (KnockServer × Manager × List Action) :=
  if p.dstPort = (s.cfg.AllowPort : Int) || contains s.cfg.KnockPorts p.dstPort then
    HandlePacket s nft p.srcIP p.dstPort p.now
  else some ((resetStateIfInvalidAccess s p.srcIP p.dstPort p.now).2, nft, [])

/-- The server as `NewKnockServer` builds it: empty state map. -/
def newServer (cfg : ServiceConfig) (allowChain : String) : KnockServer :=
  { cfg := cfg, stateMap := fun _ => none, allowChain := allowChain }

/-- Handle packets one after the other.  The firewall controller is shared with the
expiry goroutines and with the other services, so each packet comes with the state the
controller has when the packet is handled.  The result lists the actions taken for each
packet; `none` is a run-time panic. -/
def serve (s : KnockServer) : List (Manager × Packet) → Option (KnockServer × List (List Action))
  | [] => some (s, [])
  | (nft, p) :: rest =>
    match dispatch s nft p with
    | none => none
    | some (s1, _, acts) =>
      match serve s1 rest with
      | none => none
      | some (s2, out) => some (s2, acts :: out)

/-- Feed `handleKnock` the given ports at the given instants for one source. -/
def knockAll (s : KnockServer) (srcIP : String) (globalTimeout stepTimeout : Duration) :
    List (Manager × Int × Time) → Option (KnockServer × List (List Action))
  | [] => some (s, [])
  | (nft, port, now) :: rest =>
    match handleKnock s nft srcIP port globalTimeout stepTimeout now with
    | none => none
    | some (s1, _, acts) =>
      match knockAll s1 srcIP globalTimeout stepTimeout rest with
      | none => none
      | some (s2, out) => some (s2, acts :: out)

/-- The allow calls among some actions, as `(service, ip, port)`. -/
def allowCalls : List Action → List (String × String × Int)
  | [] => []
  | Action.allowIP name ip port _ _ :: rest => (name, ip, port) :: allowCalls rest
  | Action.spawnExpiry _ _ _ _ _ :: rest => allowCalls rest

/-! ## The service with its expiry goroutines -/

/-- A sleeping expiry goroutine: at `fireAt` it calls `RevokeIP`. -/
structure Expiry where
  fireAt : Time
  serviceName : String
  ip : String
  port : Int
  chain : String
  deriving DecidableEq, Repr

/-- One service, the firewall controller and the sleeping expiry goroutines. -/
structure World where
  server : KnockServer
  nft : Manager
  pending : List Expiry

/-- Let the clock reach `t`: every goroutine whose timer has fired by then calls
`RevokeIP`, in the order the goroutines were started. -/
def World.advance (w : World) (t : Time) : World :=
  { w with
    nft := (w.pending.filter fun e => decide (e.fireAt ≤ t)).foldl
      (fun m e => (RevokeIP m e.serviceName e.ip e.port e.chain).2) w.nft,
    pending := w.pending.filter fun e => !decide (e.fireAt ≤ t) }

/-- The goroutines started by some actions at instant `now`. -/
def spawnedAt (now : Time) : List Action → List Expiry
  | [] => []
  | Action.spawnExpiry after name ip port chain :: rest =>
    ⟨now + after, name, ip, port, chain⟩ :: spawnedAt now rest
  | Action.allowIP _ _ _ _ _ :: rest => spawnedAt now rest

/-- A packet arrives: the clock reaches its instant, then the packet is dispatched. -/
def World.receive (w : World) (p : Packet) : Option World :=
  let w1 := w.advance p.now
  match dispatch w1.server w1.nft p with
  | none => none
  | some (s, nft, acts) =>
    some { server := s, nft := nft, pending := w1.pending ++ spawnedAt p.now acts }

/-- Packets arrive one after the other. -/
def World.receiveAll (w : World) : List Packet → Option World
  | [] => some w
  | p :: rest =>
    match w.receive p with
    | none => none
    | some w1 => w1.receiveAll rest

/-! ## Definitions used by the statements -/

/-- Every stored record has its index inside the knock sequence. -/
def SeqOK (s : KnockServer) : Prop :=
  ∀ a r, s.stateMap a = some r → r.SeqIndex < s.cfg.KnockPorts.length

/-- The service of the end-to-end scenarios: knock 1000, 2000, 3000, allow port 22,
grant 60 s. -/
def cfgS : ServiceConfig := ⟨"S", [1000, 2000, 3000], 22, 60, "eth0", 5⟩

/-- A freshly initialised controller. -/
def nft0 : Manager := ⟨⟨[], 1, false⟩, fun _ => none, fun _ => false⟩

/-- The packets of source `a` among `ps` that went to a port other than the allow port:
the knock-port and irrelevant-port packets of that source, in the order handled. -/
def history (cfg : ServiceConfig) (a : String) (ps : List Packet) : List Packet :=
  ps.filter fun q => decide (q.srcIP = a) && !decide (q.dstPort = (cfg.AllowPort : Int))

/-- Consecutive packets are at most `g` apart. -/
def Within (g : Duration) (w : List Packet) : Prop :=
  List.Chain' (fun x y => y.now - x.now ≤ g) w

/-- The last `k` packets in the history of source `a` are `w`: they went to the first
`k` knock ports in order, each at most `g` after the one before. -/
def KnockRun (cfg : ServiceConfig) (g : Duration) (a : String) (ps : List Packet) (k : Nat)
    (w : List Packet) : Prop :=
  w <:+ history cfg a ps ∧ w.map (fun q => q.dstPort) = cfg.KnockPorts.take k ∧ Within g w

/-- Invariant of the state engine at clock reading `T` after the packets `ps`: a stored
record that is not stale at `T` stands for a run of `SeqIndex` matched knocks, the last of
them at `LastTime`. -/
def KnockInv (cfg : ServiceConfig) (T : Time) (ps : List Packet) (s : KnockServer) : Prop :=
  s.cfg = cfg ∧
  ∀ a r, s.stateMap a = some r →
    r.SeqIndex < cfg.KnockPorts.length ∧
    (T - r.LastTime ≤ secondsToDuration cfg.ExpireSeconds →
      ∃ w, KnockRun cfg (secondsToDuration cfg.ExpireSeconds) a ps r.SeqIndex w ∧
        ∀ q ∈ w.getLast?, q.now = r.LastTime)

/-- The allow calls `(service, ip, port)` made while packet `p` is handled, after the
events `pre` were handled starting from the empty state map. -/
def allowCallsAt (cfg : ServiceConfig) (chain : String) (pre : List (Manager × Packet))
    (nft : Manager) (p : Packet) : List (String × String × Int) :=
  match serve (newServer cfg chain) pre with
  | none => []
  | some (s, _) =>
    match dispatch s nft p with
    | none => []
    | some (_, _, acts) => allowCalls acts

/-- The clock readings of the events never decrease. -/
def ClockMonotone (events : List (Manager × Packet)) : Prop :=
  List.Pairwise (fun e1 e2 => e1.2.now ≤ e2.2.now) events

instance (events : List (Manager × Packet)) : Decidable (ClockMonotone events) := by
  unfold ClockMonotone
  infer_instance

/-- The record of source `a` after the events were handled from the empty state map. -/
def recordAfter (cfg : ServiceConfig) (chain : String) (events : List (Manager × Packet))
    (a : String) : Option KnockState :=
  match serve (newServer cfg chain) events with
  | none => none
  | some (s, _) => s.stateMap a

/-- Service `cfgS` after source 10.0.0.5 matched the first knock at instant 1. -/
def sKnocked : KnockServer := (newServer cfgS "S_allow").store "10.0.0.5" ⟨1, 1, 0⟩

/-- Service `cfgS` with a grant for 10.0.0.5 until instant 63 and a first knock matched
again at instant 5. -/
def sGranted : KnockServer := (newServer cfgS "S_allow").store "10.0.0.5" ⟨1, 5, 63⟩

/-- An instant given in seconds. -/
def seconds (n : Int) : Time := n * 1000000000

/-- A packet from 10.0.0.5 to `port` at `t` seconds, with a freshly initialised
controller. -/
def pkt (port : Int) (t : Int) : Manager × Packet := (nft0, ⟨"10.0.0.5", port, seconds t⟩)

/-- Every stored record was last touched no later than the clock reading `T`, and its
grant, if one is recorded, ends at most `g` after its `LastTime`. -/
def GrantInv (g : Duration) (T : Time) (s : KnockServer) : Prop :=
  ∀ a r, s.stateMap a = some r →
    r.LastTime ≤ T ∧ (r.AllowedUntil = 0 ∨ r.AllowedUntil ≤ r.LastTime + g)

/-- A parsed configuration whose only service has no `expire_seconds` key: the field
keeps the Go zero value. -/
def cfgNoExpire : Config := ⟨[⟨"S", [1000, 2000, 3000], 22, 0, "eth0", 5⟩]⟩

/-- Service `cfgS` right after start-up: empty state map, freshly initialised controller,
no expiry goroutine. -/
def world0 : World := ⟨newServer cfgS "S_allow", nft0, []⟩

/-- Source 10.0.0.5 completes the sequence at 3 s and again at 33 s. -/
def twoCompletions : List Packet :=
  [⟨"10.0.0.5", 1000, seconds 1⟩, ⟨"10.0.0.5", 2000, seconds 2⟩, ⟨"10.0.0.5", 3000, seconds 3⟩,
   ⟨"10.0.0.5", 1000, seconds 31⟩, ⟨"10.0.0.5", 2000, seconds 32⟩,
   ⟨"10.0.0.5", 3000, seconds 33⟩]

/-- The committed rules of `chain` at instant `t`, the packets `ps` having arrived
before. -/
def rulesAt (w : World) (ps : List Packet) (t : Time) (chain : String) : Option (List Rule) :=
  match w.receiveAll ps with
  | none => none
  | some w1 => some ((w1.advance t).nft.conn.rules.filter fun r => r.Chain == chain)

/-- A call of the firewall controller. -/
inductive NftCall where
  | allow (serviceName srcIP : String) (port : Int) (expireSeconds : Int) (chain : String)
  | revoke (serviceName ip : String) (port : Int) (chain : String)
  deriving DecidableEq, Repr

/-- Make the call. -/
def NftCall.run (m : Manager) : NftCall → Option String × Manager
  | .allow name srcIP port expire chain => AllowIP m name srcIP port expire chain
  | .revoke name ip port chain => RevokeIP m name ip port chain

/-- Make the calls one after the other; `none` as soon as one of them returns an
error. -/
def runCalls (m : Manager) : List NftCall → Option Manager
  | [] => some m
  | c :: rest =>
    match (c.run m).1 with
    | some _ => none
    | none => runCalls (c.run m).2 rest

/-- The text is the dotted quad of an IPv4 address as `net.IP.String` prints it. -/
def IsDottedQuad (srcIP : String) : Prop := (ParseIPTo4 srcIP).map IPString = some srcIP

instance (srcIP : String) : Decidable (IsDottedQuad srcIP) := by
  unfold IsDottedQuad
  infer_instance

/-- The source of an allow call is an IPv4 address in dotted-quad text. -/
def NftCall.fromIPv4 : NftCall → Prop
  | .allow _ srcIP _ _ _ => IsDottedQuad srcIP
  | .revoke _ _ _ _ => True

instance (c : NftCall) : Decidable c.fromIPv4 := by
  cases c <;> unfold NftCall.fromIPv4 <;> infer_instance

/-- A call of the firewall controller made while the services are set up. -/
inductive SetupCall where
  | createAllowChain (serviceName : String) (port : Int)
  | addBlockRule (serviceName : String) (port : Int)
  deriving DecidableEq, Repr

/-- Make the set-up call: the manager after it, or `none` when the call returns an
error. -/
def SetupCall.run (m : Manager) : SetupCall → Option Manager
  | .createAllowChain name port =>
    match CreateAllowChain m name port with
    | (.ok _, m1) => some m1
    | (.error _, _) => none
  | .addBlockRule name port =>
    match AddBlockRule m name port with
    | (none, m1) => some m1
    | (some _, _) => none

/-- Make the set-up calls one after the other; `none` as soon as one of them returns an
error. -/
def runSetup (m : Manager) : List SetupCall → Option Manager
  | [] => some m
  | c :: rest =>
    match c.run m with
    | none => none
    | some m1 => runSetup m1 rest

/-- The rules of the main chain, in evaluation order. -/
def mainChain (m : Manager) : List Rule :=
  m.conn.rules.filter fun r => r.Chain == mainChainName

/-- The rule ends in a jump verdict. -/
def Rule.isJump (r : Rule) : Bool :=
  r.Exprs.any fun e =>
    match e with
    | .verdictJump _ => true
    | _ => false

/-- The rule ends in a drop verdict. -/
def Rule.isDrop (r : Rule) : Bool :=
  r.Exprs.any fun e =>
    match e with
    | .verdictDrop => true
    | _ => false

/-- The controller with its transport down: every request returns an error. -/
def nftDown : Manager := ⟨⟨[], 1, true⟩, fun _ => none, fun _ => false⟩

/-- Service `cfgS` after source 10.0.0.5 matched the first two knocks, the second at
instant 2. -/
def sTwoKnocks : KnockServer := (newServer cfgS "S_allow").store "10.0.0.5" ⟨2, 2, 0⟩

/-- The expressions of the jump rule of `CreateAllowChain`. -/
def jumpExprs (serviceName : String) (port : Int) : List Expr :=
  [Expr.cmpProto 6, Expr.cmpDstPort (portBytes port).1 (portBytes port).2,
   Expr.verdictJump (serviceName ++ "_allow")]

/-- The expressions of a drop rule of `AddBlockRule` for protocol `proto`. -/
def dropExprs (proto : Nat) (port : Int) : List Expr :=
  [Expr.cmpProto proto, Expr.cmpDstPort (portBytes port).1 (portBytes port).2,
   Expr.verdictDrop]

/-- The list is some jump rules followed by some drop rules. -/
def JumpsFirst (l : List Rule) : Prop :=
  ∃ jumps drops, l = jumps ++ drops ∧
    (∀ r ∈ jumps, r.isJump = true ∧ r.isDrop = false) ∧
    (∀ r ∈ drops, r.isJump = false ∧ r.isDrop = true)

/-- Invariant of the set-up calls: the main chain is jump rules followed by drop rules,
and a port marked as blocked has its two drop rules in the main chain. -/
def SetupInv (m : Manager) : Prop :=
  JumpsFirst (mainChain m) ∧
  ∀ p, m.blockedPorts p = true →
    (∃ r ∈ mainChain m, r.Exprs = dropExprs 6 p) ∧ (∃ r ∈ mainChain m, r.Exprs = dropExprs 17 p)

/-- The rules the set-up call installs are in the list: the jump rule of the service for
`createAllowChain`, the TCP and the UDP drop rule of the port for `addBlockRule`. -/
def SetupCall.installed (l : List Rule) : SetupCall → Prop
  | .createAllowChain name port => ∃ r ∈ l, r.Exprs = jumpExprs name port
  | .addBlockRule _ port =>
    (∃ r ∈ l, r.Exprs = dropExprs 6 port) ∧ (∃ r ∈ l, r.Exprs = dropExprs 17 port)

/-- The main chain after the controller was initialised on kernel state `k` and the
set-up calls were made; `none` when the initialisation or one of the calls fails. -/
def mainChainAfter (k : Kernel) (calls : List SetupCall) : Option (List Rule) :=
  match NewManager k with
  | none => none
  | some m0 =>
    match runSetup m0 calls with
    | none => none
    | some m => some (mainChain m)

/-- The set-up calls of `runInterfaceListener` for two services: A protects port 22, B
port 443. -/
def setupTwoServices : List SetupCall :=
  [.createAllowChain "A" 22, .addBlockRule "A" 22,
   .createAllowChain "B" 443, .addBlockRule "B" 443]

/-- The main chain after `setupTwoServices`. -/
def chainTwoServices : List Rule :=
  [⟨"pkinput", 4, jumpExprs "B" 443, "jump-B_allow"⟩,
   ⟨"pkinput", 1, jumpExprs "A" 22, "jump-A_allow"⟩,
   ⟨"pkinput", 2, dropExprs 6 22, ""⟩, ⟨"pkinput", 3, dropExprs 17 22, ""⟩,
   ⟨"pkinput", 5, dropExprs 6 443, ""⟩, ⟨"pkinput", 6, dropExprs 17 443, ""⟩]

/-! ## Basic facts -/

theorem contains_iff (ports : List Int) (port : Int) :
    contains ports port = true ↔ port ∈ ports := by
  induction ports with
  | nil => simp [contains]
  | cons p ps ih =>
    by_cases h : p = port
    · simp [contains, h]
    · simp [contains, h, ih, Ne.symm h]

theorem store_cfg (s : KnockServer) (a : String) (r : KnockState) :
    (s.store a r).cfg = s.cfg := rfl

theorem delete_cfg (s : KnockServer) (a : String) : (s.delete a).cfg = s.cfg := rfl

theorem SeqOK_store {s : KnockServer} (h : SeqOK s) (a : String) (r : KnockState)
    (hr : r.SeqIndex < s.cfg.KnockPorts.length) : SeqOK (s.store a r) := by
  intro b q hq
  simp only [KnockServer.store] at hq
  by_cases hb : b = a
  · simp only [hb, if_true, Option.some.injEq] at hq
    subst hq
    exact hr
  · simp only [hb, if_false] at hq
    exact h b q hq

theorem SeqOK_delete {s : KnockServer} (h : SeqOK s) (a : String) : SeqOK (s.delete a) := by
  intro b q hq
  simp only [KnockServer.delete] at hq
  by_cases hb : b = a
  · simp [hb] at hq
  · simp only [hb, if_false] at hq
    exact h b q hq

theorem loadState_lt {s : KnockServer} (h : SeqOK s) (hne : s.cfg.KnockPorts ≠ [])
    (a : String) (g : Duration) (now : Time) :
    (loadState s a g now).SeqIndex < s.cfg.KnockPorts.length := by
  have hpos : 0 < s.cfg.KnockPorts.length := List.length_pos.mpr hne
  unfold loadState
  split
  · exact hpos
  · rename_i st hst
    split
    · exact hpos
    · exact h a st hst

theorem handleKnock_SeqOK {s : KnockServer} (h : SeqOK s) (hne : s.cfg.KnockPorts ≠ [])
    (nft : Manager) (a : String) (port : Int) (g st : Duration) (now : Time) :
    ∃ s1 nft1 acts, handleKnock s nft a port g st now = some (s1, nft1, acts) ∧
      SeqOK s1 ∧ s1.cfg = s.cfg := by
  have hlt := loadState_lt h hne a g now
  have hpos : 0 < s.cfg.KnockPorts.length := List.length_pos.mpr hne
  unfold handleKnock
  simp only [List.getElem?_eq_getElem hlt]
  split_ifs with h1 h2 h3
  · exact ⟨_, _, _, rfl, SeqOK_store h _ _ hpos, rfl⟩
  · exact ⟨_, _, _, rfl, h, rfl⟩
  · exact ⟨_, _, _, rfl, SeqOK_store h _ _ hpos, rfl⟩
  · refine ⟨_, _, _, rfl, SeqOK_store h _ _ ?_, rfl⟩
    simp only at h3 ⊢
    omega

theorem reset_SeqOK {s : KnockServer} (h : SeqOK s) (a : String) (port : Int) (now : Time) :
    SeqOK (resetStateIfInvalidAccess s a port now).2 ∧
      (resetStateIfInvalidAccess s a port now).2.cfg = s.cfg := by
  unfold resetStateIfInvalidAccess
  split_ifs with h1 h2
  · exact ⟨h, rfl⟩
  · exact ⟨h, rfl⟩
  · split
    · exact ⟨h, rfl⟩
    · rename_i st hst
      split_ifs with h3
      · exact ⟨SeqOK_delete h a, rfl⟩
      · exact ⟨SeqOK_store h a _ (Nat.lt_of_le_of_lt (Nat.zero_le _) (h a st hst)), rfl⟩

theorem HandlePacket_allow (s : KnockServer) (nft : Manager) (a : String) (port : Int)
    (now : Time) (h : port = (s.cfg.AllowPort : Int)) :
    HandlePacket s nft a port now = some (s, nft, []) := by
  simp [HandlePacket, h]

theorem HandlePacket_knock (s : KnockServer) (nft : Manager) (a : String) (port : Int)
    (now : Time) (h : port ≠ (s.cfg.AllowPort : Int))
    (hk : contains s.cfg.KnockPorts port = true) :
    HandlePacket s nft a port now =
      handleKnock s nft a port (secondsToDuration s.cfg.ExpireSeconds)
        (secondsToDuration s.cfg.StepTimeoutSeconds) now := by
  simp [HandlePacket, h, hk]

theorem HandlePacket_other (s : KnockServer) (nft : Manager) (a : String) (port : Int)
    (now : Time) (h : port ≠ (s.cfg.AllowPort : Int))
    (hk : contains s.cfg.KnockPorts port = false) :
    HandlePacket s nft a port now = some (s, nft, []) := by
  simp [HandlePacket, h, hk]

theorem dispatch_allow (s : KnockServer) (nft : Manager) (p : Packet)
    (h : p.dstPort = (s.cfg.AllowPort : Int)) : dispatch s nft p = some (s, nft, []) := by
  simp [dispatch, h, HandlePacket_allow]

theorem dispatch_knock (s : KnockServer) (nft : Manager) (p : Packet)
    (h : p.dstPort ≠ (s.cfg.AllowPort : Int))
    (hk : contains s.cfg.KnockPorts p.dstPort = true) :
    dispatch s nft p =
      handleKnock s nft p.srcIP p.dstPort (secondsToDuration s.cfg.ExpireSeconds)
        (secondsToDuration s.cfg.StepTimeoutSeconds) p.now := by
  simp [dispatch, hk, HandlePacket_knock s nft p.srcIP p.dstPort p.now h hk]

theorem dispatch_other (s : KnockServer) (nft : Manager) (p : Packet)
    (h : p.dstPort ≠ (s.cfg.AllowPort : Int))
    (hk : contains s.cfg.KnockPorts p.dstPort = false) :
    dispatch s nft p =
      some ((resetStateIfInvalidAccess s p.srcIP p.dstPort p.now).2, nft, []) := by
  simp [dispatch, h, hk]

theorem contains_ne_nil {ports : List Int} {port : Int} (h : contains ports port = true) :
    ports ≠ [] := by
  intro hnil
  rw [hnil] at h
  simp [contains] at h

theorem dispatch_SeqOK {s : KnockServer} (h : SeqOK s) (nft : Manager) (p : Packet) :
    ∃ s1 nft1 acts, dispatch s nft p = some (s1, nft1, acts) ∧
      SeqOK s1 ∧ s1.cfg = s.cfg := by
  by_cases h1 : p.dstPort = (s.cfg.AllowPort : Int)
  · exact ⟨s, nft, [], dispatch_allow s nft p h1, h, rfl⟩
  · cases hk : contains s.cfg.KnockPorts p.dstPort with
    | true =>
      rw [dispatch_knock s nft p h1 hk]
      exact handleKnock_SeqOK h (contains_ne_nil hk) nft _ _ _ _ _
    | false =>
      rw [dispatch_other s nft p h1 hk]
      exact ⟨_, _, _, rfl, (reset_SeqOK h _ _ _).1, (reset_SeqOK h _ _ _).2⟩

theorem serve_SeqOK (events : List (Manager × Packet)) :
    ∀ {s : KnockServer}, SeqOK s →
      ∃ s1 out, serve s events = some (s1, out) ∧ SeqOK s1 ∧ s1.cfg = s.cfg := by
  induction events with
  | nil => intro s h; exact ⟨s, [], rfl, h, rfl⟩
  | cons e rest ih =>
    intro s h
    obtain ⟨nft, p⟩ := e
    obtain ⟨s1, nft1, acts, hd, h1, hc1⟩ := dispatch_SeqOK h nft p
    obtain ⟨s2, out, hs, h2, hc2⟩ := ih h1
    refine ⟨s2, acts :: out, ?_, h2, hc2.trans hc1⟩
    simp only [serve, hd, hs]

theorem SeqOK_newServer (cfg : ServiceConfig) (chain : String) : SeqOK (newServer cfg chain) := by
  intro a r h
  simp [newServer] at h

/-! ## The branches of `handleKnock` -/

theorem handleKnock_ignored (s : KnockServer) (nft : Manager) (a : String) (port : Int)
    (g st : Duration) (now : Time) (e : Int)
    (he : s.cfg.KnockPorts[(loadState s a g now).SeqIndex]? = some e)
    (hne : port ≠ e) (h0 : (loadState s a g now).SeqIndex = 0) :
    handleKnock s nft a port g st now = some (s, nft, []) := by
  unfold handleKnock
  simp only [he]
  simp [hne, h0]

theorem handleKnock_wrong (s : KnockServer) (nft : Manager) (a : String) (port : Int)
    (g st : Duration) (now : Time) (e : Int)
    (he : s.cfg.KnockPorts[(loadState s a g now).SeqIndex]? = some e)
    (hne : port ≠ e) (h0 : 0 < (loadState s a g now).SeqIndex) :
    handleKnock s nft a port g st now =
      some (s.store a ⟨0, now, (loadState s a g now).AllowedUntil⟩, nft, []) := by
  unfold handleKnock
  simp only [he]
  simp [hne, h0]

theorem handleKnock_step (s : KnockServer) (nft : Manager) (a : String) (port : Int)
    (g st : Duration) (now : Time)
    (he : s.cfg.KnockPorts[(loadState s a g now).SeqIndex]? = some port)
    (hn : (loadState s a g now).SeqIndex + 1 ≠ s.cfg.KnockPorts.length) :
    handleKnock s nft a port g st now =
      some (s.store a ⟨(loadState s a g now).SeqIndex + 1, now,
        (loadState s a g now).AllowedUntil⟩, nft, []) := by
  unfold handleKnock
  simp only [he]
  simp [hn]

theorem handleKnock_complete (s : KnockServer) (nft : Manager) (a : String) (port : Int)
    (g st : Duration) (now : Time)
    (he : s.cfg.KnockPorts[(loadState s a g now).SeqIndex]? = some port)
    (hn : (loadState s a g now).SeqIndex + 1 = s.cfg.KnockPorts.length) :
    ∃ acts, handleKnock s nft a port g st now =
      some (s.store a ⟨0, now, now + g⟩,
        (AllowIP nft s.cfg.Name a s.cfg.AllowPort s.cfg.ExpireSeconds s.allowChain).2,
        acts) ∧
      allowCalls acts = [(s.cfg.Name, a, (s.cfg.AllowPort : Int))] := by
  unfold handleKnock
  simp only [he]
  cases hres : (AllowIP nft s.cfg.Name a s.cfg.AllowPort s.cfg.ExpireSeconds s.allowChain).1 with
  | none =>
    exact ⟨[Action.allowIP s.cfg.Name a s.cfg.AllowPort s.cfg.ExpireSeconds s.allowChain,
      Action.spawnExpiry g s.cfg.Name a s.cfg.AllowPort s.allowChain], by simp [hn],
      by simp [allowCalls]⟩
  | some err =>
    exact ⟨[Action.allowIP s.cfg.Name a s.cfg.AllowPort s.cfg.ExpireSeconds s.allowChain],
      by simp [hn], by simp [allowCalls]⟩

/-! ## Histories and runs -/

theorem history_append_other (cfg : ServiceConfig) (a : String) (ps : List Packet)
    (p : Packet) (h : p.srcIP ≠ a) : history cfg a (ps ++ [p]) = history cfg a ps := by
  simp [history, List.filter_append, List.filter_cons, h]

theorem history_append_allow (cfg : ServiceConfig) (a : String) (ps : List Packet)
    (p : Packet) (h : p.dstPort = (cfg.AllowPort : Int)) :
    history cfg a (ps ++ [p]) = history cfg a ps := by
  simp [history, List.filter_append, List.filter_cons, h]

theorem history_append_self (cfg : ServiceConfig) (ps : List Packet)
    (p : Packet) (h : p.dstPort ≠ (cfg.AllowPort : Int)) :
    history cfg p.srcIP (ps ++ [p]) = history cfg p.srcIP ps ++ [p] := by
  simp [history, List.filter_append, List.filter_cons, h]

theorem KnockRun_zero (cfg : ServiceConfig) (g : Duration) (a : String) (ps : List Packet) :
    KnockRun cfg g a ps 0 [] := by
  refine ⟨List.nil_suffix, by simp, ?_⟩
  simp [Within]

theorem KnockRun_congr {cfg : ServiceConfig} {g : Duration} {a : String}
    {ps qs : List Packet} {k : Nat} {w : List Packet}
    (h : history cfg a qs = history cfg a ps) (hr : KnockRun cfg g a ps k w) :
    KnockRun cfg g a qs k w := by
  unfold KnockRun at *
  rw [h]
  exact hr

theorem KnockRun_extend {cfg : ServiceConfig} {g : Duration} {ps : List Packet} {k : Nat}
    {w : List Packet} {p : Packet} (hr : KnockRun cfg g p.srcIP ps k w)
    (hlast : ∀ q ∈ w.getLast?, p.now - q.now ≤ g)
    (hport : cfg.KnockPorts[k]? = some p.dstPort)
    (hallow : p.dstPort ≠ (cfg.AllowPort : Int)) :
    KnockRun cfg g p.srcIP (ps ++ [p]) (k + 1) (w ++ [p]) := by
  obtain ⟨hsuf, hmap, hch⟩ := hr
  refine ⟨?_, ?_, ?_⟩
  · rw [history_append_self cfg ps p hallow]
    obtain ⟨front, hfront⟩ := hsuf
    exact ⟨front, by rw [← hfront, List.append_assoc]⟩
  · rw [List.map_append, hmap, List.take_succ, hport]
    simp
  · unfold Within at *
    rw [List.chain'_append]
    refine ⟨hch, List.chain'_singleton _, ?_⟩
    intro x hx y hy
    simp only [List.head?_cons, Option.mem_def, Option.some.injEq] at hy
    subst hy
    exact hlast x hx

/-! ## The invariant is kept by every packet -/

theorem store_self (s : KnockServer) (a : String) (r : KnockState) :
    (s.store a r).stateMap a = some r := by
  simp [KnockServer.store]

theorem store_other (s : KnockServer) (a b : String) (r : KnockState) (h : b ≠ a) :
    (s.store a r).stateMap b = s.stateMap b := by
  simp [KnockServer.store, h]

theorem delete_self (s : KnockServer) (a : String) : (s.delete a).stateMap a = none := by
  simp [KnockServer.delete]

theorem delete_other (s : KnockServer) (a b : String) (h : b ≠ a) :
    (s.delete a).stateMap b = s.stateMap b := by
  simp [KnockServer.delete, h]

theorem KnockInv_step {cfg : ServiceConfig} {T : Time} {ps : List Packet} {s s1 : KnockServer}
    {p : Packet} (hinv : KnockInv cfg T ps s) (hT : T ≤ p.now) (hcfg : s1.cfg = s.cfg)
    (hother : ∀ b, b ≠ p.srcIP → s1.stateMap b = s.stateMap b)
    (hself : ∀ r, s1.stateMap p.srcIP = some r →
      r.SeqIndex < cfg.KnockPorts.length ∧
      (p.now - r.LastTime ≤ secondsToDuration cfg.ExpireSeconds →
        ∃ w, KnockRun cfg (secondsToDuration cfg.ExpireSeconds) p.srcIP (ps ++ [p])
          r.SeqIndex w ∧ ∀ q ∈ w.getLast?, q.now = r.LastTime)) :
    KnockInv cfg p.now (ps ++ [p]) s1 := by
  refine ⟨hcfg.trans hinv.1, ?_⟩
  intro a r har
  by_cases ha : a = p.srcIP
  · subst ha
    exact hself r har
  · rw [hother a ha] at har
    obtain ⟨hlt, hrun⟩ := hinv.2 a r har
    refine ⟨hlt, fun hfresh => ?_⟩
    obtain ⟨w, hw, hl⟩ := hrun (by linarith)
    exact ⟨w, KnockRun_congr (history_append_other cfg a ps p (Ne.symm ha)) hw, hl⟩

/-- The record `handleKnock` works on stands for a run that the packet may extend. -/
theorem loadState_run {cfg : ServiceConfig} {T : Time} {ps : List Packet} {s : KnockServer}
    (hinv : KnockInv cfg T ps s) (a : String) (now : Time) (hT : T ≤ now) :
    ∃ w, KnockRun cfg (secondsToDuration cfg.ExpireSeconds) a ps
        (loadState s a (secondsToDuration cfg.ExpireSeconds) now).SeqIndex w ∧
      ∀ q ∈ w.getLast?, now - q.now ≤ secondsToDuration cfg.ExpireSeconds := by
  unfold loadState
  split
  · exact ⟨[], KnockRun_zero _ _ _ _, by simp⟩
  · rename_i st hst
    split_ifs with hstale
    · exact ⟨[], KnockRun_zero _ _ _ _, by simp⟩
    · obtain ⟨_, hrun⟩ := hinv.2 a st hst
      obtain ⟨w, hw, hl⟩ := hrun (by linarith)
      refine ⟨w, hw, ?_⟩
      intro q hq
      rw [hl q hq]
      linarith

theorem KnockInv_SeqOK {cfg : ServiceConfig} {T : Time} {ps : List Packet} {s : KnockServer}
    (hinv : KnockInv cfg T ps s) : SeqOK s := by
  intro a r har
  rw [hinv.1]
  exact (hinv.2 a r har).1

theorem KnockInv_allow {cfg : ServiceConfig} {T : Time} {ps : List Packet} {s : KnockServer}
    {p : Packet} (hinv : KnockInv cfg T ps s) (hT : T ≤ p.now)
    (hp : p.dstPort = (cfg.AllowPort : Int)) : KnockInv cfg p.now (ps ++ [p]) s := by
  refine ⟨hinv.1, ?_⟩
  intro a r har
  obtain ⟨hlt, hrun⟩ := hinv.2 a r har
  refine ⟨hlt, fun hfresh => ?_⟩
  obtain ⟨w, hw, hl⟩ := hrun (by linarith)
  exact ⟨w, KnockRun_congr (history_append_allow cfg a ps p hp) hw, hl⟩

theorem KnockInv_reset {cfg : ServiceConfig} {T : Time} {ps : List Packet} {s : KnockServer}
    {p : Packet} (hinv : KnockInv cfg T ps s) (hT : T ≤ p.now)
    (h1 : p.dstPort ≠ (s.cfg.AllowPort : Int))
    (h2 : contains s.cfg.KnockPorts p.dstPort = false) :
    KnockInv cfg p.now (ps ++ [p]) (resetStateIfInvalidAccess s p.srcIP p.dstPort p.now).2 := by
  have hpos : ∀ r, s.stateMap p.srcIP = some r → 0 < cfg.KnockPorts.length := fun r hr =>
    Nat.lt_of_le_of_lt (Nat.zero_le _) (hinv.2 _ r hr).1
  unfold resetStateIfInvalidAccess
  simp only [h1, h2, if_false, Bool.false_eq_true]
  split
  · rename_i hnone
    refine KnockInv_step hinv hT rfl (fun _ _ => rfl) ?_
    intro r hr
    simp [hnone] at hr
  · rename_i st hst
    split_ifs with h3
    · refine KnockInv_step hinv hT rfl (fun b hb => delete_other s _ b hb) ?_
      intro r hr
      simp [delete_self] at hr
    · refine KnockInv_step hinv hT rfl (fun b hb => store_other s _ b _ hb) ?_
      intro r hr
      rw [store_self] at hr
      simp only [Option.some.injEq] at hr
      subst hr
      exact ⟨hpos st hst, fun _ => ⟨[], KnockRun_zero _ _ _ _, by simp⟩⟩

/-- What one `handleKnock` call on a knock port does to the invariant, and what an allow
call during it implies. -/
theorem KnockInv_handleKnock {cfg : ServiceConfig} {T : Time} {ps : List Packet}
    {s : KnockServer} {p : Packet} (hinv : KnockInv cfg T ps s) (hT : T ≤ p.now)
    (nft : Manager) (st : Duration)
    (h1 : p.dstPort ≠ (cfg.AllowPort : Int)) (h2 : cfg.KnockPorts ≠ []) :
    ∃ s1 nft1 acts,
      handleKnock s nft p.srcIP p.dstPort (secondsToDuration cfg.ExpireSeconds) st p.now =
        some (s1, nft1, acts) ∧
      KnockInv cfg p.now (ps ++ [p]) s1 ∧
      (∀ c ∈ allowCalls acts, c = (cfg.Name, p.srcIP, (cfg.AllowPort : Int)) ∧
        ∃ w, KnockRun cfg (secondsToDuration cfg.ExpireSeconds) p.srcIP (ps ++ [p])
          cfg.KnockPorts.length w ∧ w.getLast? = some p) := by
  have hcfg := hinv.1
  have hok := KnockInv_SeqOK hinv
  have hlt := loadState_lt hok (by rw [hcfg]; exact h2) p.srcIP
    (secondsToDuration cfg.ExpireSeconds) p.now
  have hpos : 0 < cfg.KnockPorts.length := List.length_pos.mpr h2
  obtain ⟨w, hw, hl⟩ := loadState_run hinv p.srcIP p.now hT
  have hget := List.getElem?_eq_getElem hlt
  generalize hk : (loadState s p.srcIP (secondsToDuration cfg.ExpireSeconds) p.now) = ld at *
  generalize he : s.cfg.KnockPorts[ld.SeqIndex] = e at hget
  rw [← hk] at hget
  by_cases hpe : p.dstPort = e
  · subst hpe
    by_cases hn : ld.SeqIndex + 1 = s.cfg.KnockPorts.length
    · obtain ⟨acts, hres, hcalls⟩ := handleKnock_complete s nft p.srcIP p.dstPort
        (secondsToDuration cfg.ExpireSeconds) st p.now hget (by rw [hk]; exact hn)
      refine ⟨_, _, acts, hres, ?_, ?_⟩
      · refine KnockInv_step hinv hT rfl (fun b hb => store_other s _ b _ hb) ?_
        intro r hr
        rw [store_self] at hr
        simp only [Option.some.injEq] at hr
        subst hr
        exact ⟨hpos, fun _ => ⟨[], KnockRun_zero _ _ _ _, by simp⟩⟩
      · intro c hc
        rw [hcalls, hcfg] at hc
        simp only [List.mem_singleton] at hc
        refine ⟨hc, w ++ [p], ?_, by simp⟩
        rw [hcfg] at hn
        rw [← hn]
        rw [hk, hcfg] at hget
        exact KnockRun_extend hw hl hget h1
    · rw [handleKnock_step s nft p.srcIP p.dstPort
        (secondsToDuration cfg.ExpireSeconds) st p.now hget (by rw [hk]; exact hn)]
      refine ⟨_, _, _, rfl, ?_, by simp [allowCalls]⟩
      refine KnockInv_step hinv hT rfl (fun b hb => store_other s _ b _ hb) ?_
      intro r hr
      rw [store_self] at hr
      simp only [Option.some.injEq] at hr
      subst hr
      rw [hk]
      rw [hcfg] at hn hlt
      refine ⟨by simp only; omega, fun _ => ⟨w ++ [p], ?_, by simp⟩⟩
      rw [hk, hcfg] at hget
      exact KnockRun_extend hw hl hget h1
  · by_cases h0 : 0 < ld.SeqIndex
    · rw [handleKnock_wrong s nft p.srcIP p.dstPort
        (secondsToDuration cfg.ExpireSeconds) st p.now e hget hpe (by rw [hk]; exact h0)]
      refine ⟨_, _, _, rfl, ?_, by simp [allowCalls]⟩
      refine KnockInv_step hinv hT rfl (fun b hb => store_other s _ b _ hb) ?_
      intro r hr
      rw [store_self] at hr
      simp only [Option.some.injEq] at hr
      subst hr
      exact ⟨hpos, fun _ => ⟨[], KnockRun_zero _ _ _ _, by simp⟩⟩
    · rw [handleKnock_ignored s nft p.srcIP p.dstPort
        (secondsToDuration cfg.ExpireSeconds) st p.now e hget hpe (by rw [hk]; omega)]
      refine ⟨_, _, _, rfl, ?_, by simp [allowCalls]⟩
      refine KnockInv_step hinv hT rfl (fun _ _ => rfl) ?_
      intro r hr
      refine ⟨(hinv.2 _ r hr).1, fun hfresh => ?_⟩
      have hld : ld = r := by
        rw [← hk]
        unfold loadState
        rw [hr]
        simp only
        rw [if_neg (by linarith)]
      rw [← hld]
      have h00 : ld.SeqIndex = 0 := by omega
      rw [h00]
      exact ⟨[], KnockRun_zero _ _ _ _, by simp⟩

theorem KnockInv_mono {cfg : ServiceConfig} {T U : Time} {ps : List Packet} {s : KnockServer}
    (hinv : KnockInv cfg T ps s) (hTU : T ≤ U) : KnockInv cfg U ps s := by
  refine ⟨hinv.1, ?_⟩
  intro a r har
  obtain ⟨hlt, hrun⟩ := hinv.2 a r har
  exact ⟨hlt, fun hfresh => hrun (by linarith)⟩

theorem KnockInv_newServer (cfg : ServiceConfig) (chain : String) (T : Time) :
    KnockInv cfg T [] (newServer cfg chain) := by
  refine ⟨rfl, ?_⟩
  intro a r har
  simp [newServer] at har

theorem KnockInv_dispatch {cfg : ServiceConfig} {T : Time} {ps : List Packet}
    {s : KnockServer} {p : Packet} (hinv : KnockInv cfg T ps s) (hT : T ≤ p.now)
    (nft : Manager) :
    ∃ s1 nft1 acts, dispatch s nft p = some (s1, nft1, acts) ∧
      KnockInv cfg p.now (ps ++ [p]) s1 ∧
      (∀ c ∈ allowCalls acts, c = (cfg.Name, p.srcIP, (cfg.AllowPort : Int)) ∧
        ∃ w, KnockRun cfg (secondsToDuration cfg.ExpireSeconds) p.srcIP (ps ++ [p])
          cfg.KnockPorts.length w ∧ w.getLast? = some p) := by
  have hcfg := hinv.1
  by_cases h1 : p.dstPort = (s.cfg.AllowPort : Int)
  · rw [dispatch_allow s nft p h1]
    exact ⟨_, _, _, rfl, KnockInv_allow hinv hT (by rw [← hcfg]; exact h1),
      by simp [allowCalls]⟩
  · cases hk : contains s.cfg.KnockPorts p.dstPort with
    | true =>
      rw [dispatch_knock s nft p h1 hk, hcfg]
      rw [hcfg] at h1 hk
      exact KnockInv_handleKnock hinv hT nft _ h1 (contains_ne_nil hk)
    | false =>
      rw [dispatch_other s nft p h1 hk]
      exact ⟨_, _, _, rfl, KnockInv_reset hinv hT h1 hk, by simp [allowCalls]⟩

theorem KnockInv_serve {cfg : ServiceConfig} (events : List (Manager × Packet)) :
    ∀ {T : Time} {ps : List Packet} {s : KnockServer}, KnockInv cfg T ps s →
      ClockMonotone events → (∀ e ∈ events, T ≤ e.2.now) →
      ∃ s1 out, serve s events = some (s1, out) ∧
        ∀ U, T ≤ U → (∀ e ∈ events, e.2.now ≤ U) →
          KnockInv cfg U (ps ++ events.map fun e => e.2) s1 := by
  induction events with
  | nil =>
    intro T ps s hinv _ _
    exact ⟨s, [], rfl, fun U hU _ => by simpa using KnockInv_mono hinv hU⟩
  | cons e rest ih =>
    intro T ps s hinv hmono hT
    obtain ⟨nft, p⟩ := e
    unfold ClockMonotone at hmono
    rw [List.pairwise_cons] at hmono
    obtain ⟨s1, nft1, acts, hd, hinv1, _⟩ :=
      KnockInv_dispatch hinv (hT (nft, p) (List.mem_cons_self _ _)) nft
    obtain ⟨s2, out, hs, hfin⟩ := ih hinv1 hmono.2 (fun e he => hmono.1 e he)
    refine ⟨s2, acts :: out, by simp only [serve, hd, hs], ?_⟩
    intro U _ hU
    have := hfin U (hU (nft, p) (List.mem_cons_self _ _))
      (fun e he => hU e (List.mem_cons_of_mem _ he))
    simpa using this

theorem loadState_fresh (s : KnockServer) (a : String) (g : Duration) (now : Time)
    (h : s.stateMap a = none) : loadState s a g now = ⟨0, 0, 0⟩ := by
  simp [loadState, h]

theorem loadState_kept (s : KnockServer) (a : String) (g : Duration) (now : Time)
    (r : KnockState) (h : s.stateMap a = some r) (hfresh : now - r.LastTime ≤ g) :
    loadState s a g now = r := by
  simp only [loadState, h]
  rw [if_neg (by linarith)]

theorem loadState_stale (s : KnockServer) (a : String) (g : Duration) (now : Time)
    (r : KnockState) (h : s.stateMap a = some r) (hstale : g < now - r.LastTime) :
    loadState s a g now = ⟨0, 0, 0⟩ := by
  simp only [loadState, h]
  rw [if_pos (by linarith)]

theorem knockAll_cons_of {s s1 s2 : KnockServer} {a : String} {g st : Duration}
    {nft nft1 : Manager} {port : Int} {now : Time} {acts : List Action}
    {rest : List (Manager × Int × Time)} {out : List (List Action)}
    (h1 : handleKnock s nft a port g st now = some (s1, nft1, acts))
    (h2 : knockAll s1 a g st rest = some (s2, out)) :
    knockAll s a g st ((nft, port, now) :: rest) = some (s2, acts :: out) := by
  rw [knockAll, h1]
  simp only [h2]

/-- From a state whose loaded index is `k`, the remaining knocks in time complete the
sequence: one allow call, on the last of them. -/
theorem knockAll_completes (cfg : ServiceConfig) (a : String) (g st : Duration) :
    ∀ (evs : List (Manager × Int × Time)) (s : KnockServer) (k : Nat) (e0 : Manager × Int × Time),
      s.cfg = cfg → evs.head? = some e0 →
      (loadState s a g e0.2.2).SeqIndex = k →
      evs.map (fun e => e.2.1) = cfg.KnockPorts.drop k →
      List.Chain' (fun e1 e2 => e2.2.2 - e1.2.2 ≤ g) evs →
      ∃ s1 out t, knockAll s a g st evs = some (s1, out) ∧
        evs.getLast?.map (fun e => e.2.2) = some t ∧
        out.map allowCalls =
          List.replicate (evs.length - 1) [] ++ [[(cfg.Name, a, (cfg.AllowPort : Int))]] ∧
        s1.stateMap a = some ⟨0, t, t + g⟩ ∧ s1.cfg = cfg := by
  intro evs
  induction evs with
  | nil => intro s k e0 _ h; simp at h
  | cons e rest ih =>
    intro s k e0 hcfg hhead hload hports hchain
    simp only [List.head?_cons, Option.some.injEq] at hhead
    subst hhead
    obtain ⟨nft, port, now⟩ := e
    simp only at hload
    simp only [List.map_cons] at hports
    have hlen : (cfg.KnockPorts.drop k).length = rest.length + 1 := by
      rw [← hports]; simp
    rw [List.length_drop] at hlen
    have hklt : k < cfg.KnockPorts.length := by omega
    have hport : s.cfg.KnockPorts[(loadState s a g now).SeqIndex]? = some port := by
      rw [hload, hcfg]
      have := List.drop_eq_getElem_cons hklt
      rw [this] at hports
      rw [List.getElem?_eq_getElem hklt]
      have h1 := (List.cons.inj hports).1
      simp only at h1
      rw [h1]
    have htail : rest.map (fun e => e.2.1) = cfg.KnockPorts.drop (k + 1) := by
      have := List.drop_eq_getElem_cons hklt
      rw [this] at hports
      exact (List.cons.inj hports).2
    cases rest with
    | nil =>
      have hn : (loadState s a g now).SeqIndex + 1 = s.cfg.KnockPorts.length := by
        rw [hload, hcfg]
        simp at hlen
        omega
      obtain ⟨acts, hres, hcalls⟩ := handleKnock_complete s nft a port g st now hport hn
      refine ⟨_, [acts], now, ?_, by simp, ?_, store_self _ _ _, hcfg⟩
      · exact knockAll_cons_of hres rfl
      · simp [hcalls, hcfg]
    | cons e2 rest2 =>
      have hn : (loadState s a g now).SeqIndex + 1 ≠ s.cfg.KnockPorts.length := by
        rw [hload, hcfg]
        simp at hlen
        omega
      have hres := handleKnock_step s nft a port g st now hport hn
      rw [List.chain'_cons] at hchain
      have hload2 : (loadState (s.store a ⟨(loadState s a g now).SeqIndex + 1, now,
          (loadState s a g now).AllowedUntil⟩) a g e2.2.2).SeqIndex = k + 1 := by
        rw [loadState_kept _ a g e2.2.2 _ (store_self _ _ _) hchain.1, hload]
      obtain ⟨s1, out, t, hrun, hlast, hout, hrec, hc⟩ :=
        ih (s.store a ⟨(loadState s a g now).SeqIndex + 1, now,
          (loadState s a g now).AllowedUntil⟩) (k + 1) e2 hcfg rfl hload2 htail hchain.2
      refine ⟨s1, [] :: out, t, ?_, ?_, ?_, hrec, hc⟩
      · exact knockAll_cons_of hres hrun
      · rw [← hlast]; simp [List.getLast?_cons_cons]
      · simp only [List.map_cons, hout, allowCalls]
        simp [List.replicate_succ]

/-- What one dispatched packet does to the record of its source; the other records are
untouched. -/
theorem dispatch_cases {s : KnockServer} (hok : SeqOK s) (nft : Manager) (p : Packet) :
    ∃ s1 nft1 acts, dispatch s nft p = some (s1, nft1, acts) ∧ s1.cfg = s.cfg ∧
      (∀ b, b ≠ p.srcIP → s1.stateMap b = s.stateMap b) ∧
      ((s1.stateMap p.srcIP = s.stateMap p.srcIP ∧ allowCalls acts = []) ∨
       (∃ r, s.stateMap p.srcIP = some r ∧ (r.AllowedUntil = 0 ∨ r.AllowedUntil < p.now) ∧
          s1.stateMap p.srcIP = none ∧ allowCalls acts = []) ∨
       (∃ r, s.stateMap p.srcIP = some r ∧ r.AllowedUntil ≠ 0 ∧ p.now ≤ r.AllowedUntil ∧
          s1.stateMap p.srcIP = some ⟨0, r.LastTime, r.AllowedUntil⟩ ∧
          allowCalls acts = []) ∨
       (∃ k, s1.stateMap p.srcIP = some ⟨k, p.now,
          (loadState s p.srcIP (secondsToDuration s.cfg.ExpireSeconds) p.now).AllowedUntil⟩ ∧
          allowCalls acts = []) ∨
       (s1.stateMap p.srcIP = some ⟨0, p.now, p.now + secondsToDuration s.cfg.ExpireSeconds⟩ ∧
          allowCalls acts ≠ [])) := by
  by_cases h1 : p.dstPort = (s.cfg.AllowPort : Int)
  · exact ⟨s, nft, [], dispatch_allow s nft p h1, rfl, fun _ _ => rfl,
      Or.inl ⟨rfl, rfl⟩⟩
  · cases hk : contains s.cfg.KnockPorts p.dstPort with
    | false =>
      rw [dispatch_other s nft p h1 hk]
      refine ⟨_, _, _, rfl, (reset_SeqOK hok _ _ _).2, ?_⟩
      unfold resetStateIfInvalidAccess
      simp only [h1, hk, if_false, Bool.false_eq_true]
      cases hrec : s.stateMap p.srcIP with
      | none => exact ⟨fun _ _ => rfl, Or.inl ⟨by simp [hrec], rfl⟩⟩
      | some r =>
        simp only
        split_ifs with h3
        · refine ⟨fun b hb => delete_other s _ b hb, Or.inr (Or.inl ⟨r, rfl, ?_,
            delete_self s _, rfl⟩)⟩
          simp only [IsZero, After, Bool.or_eq_true, decide_eq_true_eq] at h3
          exact h3
        · refine ⟨fun b hb => store_other s _ b _ hb, Or.inr (Or.inr (Or.inl ⟨r, rfl, ?_, ?_,
            store_self _ _ _, rfl⟩))⟩
          · simp only [IsZero, After, Bool.or_eq_true, decide_eq_true_eq, not_or] at h3
            exact h3.1
          · simp only [IsZero, After, Bool.or_eq_true, decide_eq_true_eq, not_or, not_lt] at h3
            exact h3.2
    | true =>
      rw [dispatch_knock s nft p h1 hk]
      have hlt := loadState_lt hok (contains_ne_nil hk) p.srcIP
        (secondsToDuration s.cfg.ExpireSeconds) p.now
      have hget := List.getElem?_eq_getElem hlt
      by_cases hpe : p.dstPort =
          s.cfg.KnockPorts[(loadState s p.srcIP (secondsToDuration s.cfg.ExpireSeconds)
            p.now).SeqIndex]
      · rw [← hpe] at hget
        by_cases hn : (loadState s p.srcIP (secondsToDuration s.cfg.ExpireSeconds)
            p.now).SeqIndex + 1 = s.cfg.KnockPorts.length
        · obtain ⟨acts, hres, hcalls⟩ := handleKnock_complete s nft p.srcIP p.dstPort
            (secondsToDuration s.cfg.ExpireSeconds)
            (secondsToDuration s.cfg.StepTimeoutSeconds) p.now hget hn
          exact ⟨_, _, acts, hres, rfl, fun b hb => store_other s _ b _ hb,
            Or.inr (Or.inr (Or.inr (Or.inr ⟨store_self _ _ _, by simp [hcalls]⟩)))⟩
        · rw [handleKnock_step s nft p.srcIP p.dstPort _ _ p.now hget hn]
          exact ⟨_, _, _, rfl, rfl, fun b hb => store_other s _ b _ hb,
            Or.inr (Or.inr (Or.inr (Or.inl ⟨_, store_self _ _ _, rfl⟩)))⟩
      · by_cases h0 : 0 < (loadState s p.srcIP (secondsToDuration s.cfg.ExpireSeconds)
            p.now).SeqIndex
        · rw [handleKnock_wrong s nft p.srcIP p.dstPort _ _ p.now _ hget hpe h0]
          exact ⟨_, _, _, rfl, rfl, fun b hb => store_other s _ b _ hb,
            Or.inr (Or.inr (Or.inr (Or.inl ⟨_, store_self _ _ _, rfl⟩)))⟩
        · rw [handleKnock_ignored s nft p.srcIP p.dstPort _ _ p.now _ hget hpe (by omega)]
          exact ⟨_, _, _, rfl, rfl, fun _ _ => rfl, Or.inl ⟨rfl, rfl⟩⟩

theorem loadState_grant {g : Duration} {T : Time} {s : KnockServer} (hinv : GrantInv g T s)
    (a : String) (now : Time) (hT : T ≤ now) :
    (loadState s a g now).AllowedUntil = 0 ∨ (loadState s a g now).AllowedUntil ≤ now + g := by
  unfold loadState
  split
  · exact Or.inl rfl
  · rename_i st hst
    split_ifs with hstale
    · exact Or.inl rfl
    · obtain ⟨h1, h2⟩ := hinv a st hst
      rcases h2 with h2 | h2
      · exact Or.inl h2
      · exact Or.inr (by linarith)

theorem GrantInv_dispatch {s s1 : KnockServer} {T : Time} {nft nft1 : Manager} {p : Packet}
    {acts : List Action} (hok : SeqOK s)
    (hinv : GrantInv (secondsToDuration s.cfg.ExpireSeconds) T s) (hT : T ≤ p.now)
    (hd : dispatch s nft p = some (s1, nft1, acts)) :
    GrantInv (secondsToDuration s.cfg.ExpireSeconds) p.now s1 := by
  obtain ⟨s2, nft2, acts2, hd2, _, hother, hself⟩ := dispatch_cases hok nft p
  rw [hd] at hd2
  simp only [Option.some.injEq, Prod.mk.injEq] at hd2
  obtain ⟨rfl, rfl, rfl⟩ := hd2
  intro a r har
  by_cases ha : a = p.srcIP
  · subst ha
    rcases hself with ⟨h, _⟩ | ⟨r0, _, _, h, _⟩ | ⟨r0, h0, _, _, h, _⟩ | ⟨k, h, _⟩ | ⟨h, _⟩
    · rw [h] at har
      obtain ⟨h1, h2⟩ := hinv _ r har
      exact ⟨by linarith, h2⟩
    · rw [h] at har; simp at har
    · rw [h] at har
      simp only [Option.some.injEq] at har
      subst har
      obtain ⟨h1, h2⟩ := hinv _ r0 h0
      exact ⟨by simp only; linarith, h2⟩
    · rw [h] at har
      simp only [Option.some.injEq] at har
      subst har
      refine ⟨le_refl _, ?_⟩
      exact loadState_grant hinv _ _ hT
    · rw [h] at har
      simp only [Option.some.injEq] at har
      subst har
      exact ⟨le_refl _, Or.inr (le_refl _)⟩
  · rw [hother a ha] at har
    obtain ⟨h1, h2⟩ := hinv a r har
    exact ⟨by linarith, h2⟩

theorem GrantInv_mono {g : Duration} {T U : Time} {s : KnockServer} (hinv : GrantInv g T s)
    (hTU : T ≤ U) : GrantInv g U s := by
  intro a r har
  obtain ⟨h1, h2⟩ := hinv a r har
  exact ⟨by linarith, h2⟩

theorem serve_cons_eq (s : KnockServer) (nft : Manager) (p : Packet)
    (rest : List (Manager × Packet)) :
    serve s ((nft, p) :: rest) =
      match dispatch s nft p with
      | none => none
      | some (s1, _, acts) =>
        match serve s1 rest with
        | none => none
        | some (s2, out) => some (s2, acts :: out) := by
  rfl

theorem serve_append (xs ys : List (Manager × Packet)) :
    ∀ s : KnockServer, serve s (xs ++ ys) =
      match serve s xs with
      | none => none
      | some (s1, o1) =>
        match serve s1 ys with
        | none => none
        | some (s2, o2) => some (s2, o1 ++ o2) := by
  induction xs with
  | nil =>
    intro s
    simp only [List.nil_append, serve]
    cases serve s ys with
    | none => rfl
    | some r => rfl
  | cons e rest ih =>
    intro s
    obtain ⟨nft, p⟩ := e
    rw [List.cons_append, serve_cons_eq, serve_cons_eq]
    cases hd : dispatch s nft p with
    | none => rfl
    | some r =>
      obtain ⟨s1, nft1, acts⟩ := r
      simp only
      rw [ih s1]
      cases serve s1 rest with
      | none => rfl
      | some r1 =>
        obtain ⟨s2, o1⟩ := r1
        simp only
        cases serve s2 ys with
        | none => rfl
        | some r2 => rfl

theorem serve_single (s : KnockServer) (nft : Manager) (p : Packet) :
    serve s [(nft, p)] =
      match dispatch s nft p with
      | none => none
      | some (s1, _, acts) => some (s1, [acts]) := by
  rw [serve_cons_eq]
  cases dispatch s nft p with
  | none => rfl
  | some r => rfl

theorem GrantInv_serve (events : List (Manager × Packet)) :
    ∀ {T : Time} {s s1 : KnockServer} {out : List (List Action)}, SeqOK s →
      GrantInv (secondsToDuration s.cfg.ExpireSeconds) T s →
      ClockMonotone events → (∀ e ∈ events, T ≤ e.2.now) →
      serve s events = some (s1, out) →
      SeqOK s1 ∧ s1.cfg = s.cfg ∧
        ∀ U, T ≤ U → (∀ e ∈ events, e.2.now ≤ U) →
          GrantInv (secondsToDuration s.cfg.ExpireSeconds) U s1 := by
  induction events with
  | nil =>
    intro T s s1 out hok hinv _ _ hs
    simp only [serve, Option.some.injEq, Prod.mk.injEq] at hs
    obtain ⟨rfl, _⟩ := hs
    exact ⟨hok, rfl, fun U hU _ => GrantInv_mono hinv hU⟩
  | cons e rest ih =>
    intro T s s1 out hok hinv hmono hT hs
    obtain ⟨nft, p⟩ := e
    unfold ClockMonotone at hmono
    rw [List.pairwise_cons] at hmono
    obtain ⟨s2, nft2, acts, hd, hok2, hcfg2⟩ := dispatch_SeqOK hok nft p
    have hinv2 := GrantInv_dispatch hok hinv (hT (nft, p) (List.mem_cons_self _ _)) hd
    rw [serve_cons_eq, hd] at hs
    simp only at hs
    cases hrest : serve s2 rest with
    | none => rw [hrest] at hs; simp at hs
    | some r =>
      obtain ⟨s3, out3⟩ := r
      rw [hrest] at hs
      simp only [Option.some.injEq, Prod.mk.injEq] at hs
      obtain ⟨rfl, _⟩ := hs
      rw [← hcfg2] at hinv2
      obtain ⟨hok3, hcfg3, hfin⟩ := ih hok2 hinv2 hmono.2 (fun e he => hmono.1 e he) hrest
      refine ⟨hok3, hcfg3.trans hcfg2, ?_⟩
      intro U _ hU
      have := hfin U (hU (nft, p) (List.mem_cons_self _ _))
        (fun e he => hU e (List.mem_cons_of_mem _ he))
      rw [hcfg2] at this
      exact this

theorem GrantInv_newServer (cfg : ServiceConfig) (chain : String) (g : Duration) (T : Time) :
    GrantInv g T (newServer cfg chain) := by
  intro a r har
  simp [newServer] at har

/-! ## The firewall controller -/

theorem HasPrefix_self (s : String) : HasPrefix s s = true := by
  unfold HasPrefix
  rw [List.isPrefixOf_iff_prefix]

theorem countUserData_le_of_sublist {m m1 : Manager} (h : m1.conn.rules.Sublist m.conn.rules)
    (chain ud : String) : countUserData m1 chain ud ≤ countUserData m chain ud := by
  unfold countUserData
  exact (h.filter _).length_le

theorem applyMsg_delRule_sublist {k k1 : Kernel} {chain : String} {handle : Nat}
    (h : k.applyMsg (Msg.delRule chain handle) = some k1) :
    k1.rules.Sublist k.rules ∧ k1.down = k.down := by
  simp only [Kernel.applyMsg] at h
  split_ifs at h
  simp only [Option.some.injEq] at h
  subst h
  exact ⟨List.filter_sublist _, rfl⟩

theorem applyAll_delRules_sublist (rs : List Rule) :
    ∀ {k k1 : Kernel}, k.applyAll (rs.map fun r => Msg.delRule r.Chain r.Handle) = some k1 →
      k1.rules.Sublist k.rules := by
  induction rs with
  | nil =>
    intro k k1 h
    simp only [List.map_nil, Kernel.applyAll, Option.some.injEq] at h
    subst h
    exact List.Sublist.refl _
  | cons r rest ih =>
    intro k k1 h
    simp only [List.map_cons, Kernel.applyAll] at h
    cases h1 : k.applyMsg (Msg.delRule r.Chain r.Handle) with
    | none => rw [h1] at h; simp at h
    | some k2 =>
      rw [h1] at h
      exact (ih h).trans (applyMsg_delRule_sublist h1).1

theorem RevokeIP_sublist (m : Manager) (name ip : String) (port : Int) (chain : String) :
    (RevokeIP m name ip port chain).2.conn.rules.Sublist m.conn.rules := by
  unfold RevokeIP
  simp only
  split
  · exact List.Sublist.refl _
  · split_ifs
    · exact List.Sublist.refl _
    · split
      · exact List.Sublist.refl _
      · rename_i k hk
        unfold Kernel.Flush at hk
        split_ifs at hk
        exact applyAll_delRules_sublist _ hk

/-- A successful `AllowIP` for a dotted-quad source either found a rule whose user data
begins with the text of the triple and changed no rule, or found none and appended the
rule of the triple to what was left of the rules after at most one deletion. -/
theorem AllowIP_ok_cases (m : Manager) (name srcIP : String) (port expire : Int)
    (chain : String) (hip : IsDottedQuad srcIP)
    (hok : (AllowIP m name srcIP port expire chain).1 = none) :
    ((AllowIP m name srcIP port expire chain).2.conn = m.conn ∧
      ∃ r ∈ m.conn.rules, r.Chain = chain ∧
        HasPrefix r.UserData (userDataOf name srcIP port) = true) ∨
    ((∀ r ∈ m.conn.rules, r.Chain = chain →
        HasPrefix r.UserData (userDataOf name srcIP port) = false) ∧
      ∃ rs h ex, rs.Sublist m.conn.rules ∧
        (AllowIP m name srcIP port expire chain).2.conn.rules =
          rs ++ [⟨chain, h, ex, userDataOf name srcIP port⟩]) := by
  unfold IsDottedQuad at hip
  cases hparse : ParseIPTo4 srcIP with
  | none => rw [hparse] at hip; simp at hip
  | some ip =>
    rw [hparse] at hip
    simp only [Option.map_some', Option.some.injEq] at hip
    unfold AllowIP at hok ⊢
    simp only [hparse, hip] at hok ⊢
    cases hget : m.conn.GetRules chain with
    | none => rw [hget] at hok; simp at hok
    | some rules =>
      simp only [hget] at hok ⊢
      unfold Kernel.GetRules at hget
      split_ifs at hget with hdown
      simp only [Option.some.injEq] at hget
      subst hget
      by_cases hfound : (List.filter (fun r => r.Chain == chain) m.conn.rules).any
          (fun rule => HasPrefix rule.UserData (userDataOf name srcIP port)) = true
      · left
        simp only [hfound, if_true]
        refine ⟨trivial, ?_⟩
        rw [List.any_eq_true] at hfound
        obtain ⟨r, hr, hp⟩ := hfound
        rw [List.mem_filter] at hr
        exact ⟨r, hr.1, by simpa using hr.2, hp⟩
      · right
        simp only [hfound, if_false, Bool.false_eq_true] at hok ⊢
        constructor
        · intro r hr hc
          by_contra hp
          apply hfound
          rw [List.any_eq_true]
          exact ⟨r, List.mem_filter.mpr ⟨hr, by simpa using hc⟩, by simpa using hp⟩
        · cases hby : m.rulesByIP ⟨srcIP, port⟩ with
          | none =>
            simp only [hby, List.nil_append, Kernel.Flush, hdown, if_false, Bool.false_eq_true,
              Kernel.applyAll, Kernel.applyMsg] at hok ⊢
            exact ⟨_, _, _, List.Sublist.refl _, rfl⟩
          | some r0 =>
            simp only [hby, List.singleton_append, Kernel.Flush, hdown, if_false,
              Bool.false_eq_true, Kernel.applyAll] at hok ⊢
            cases hdel : m.conn.applyMsg (Msg.delRule r0.Chain r0.Handle) with
            | none => simp [hdel] at hok
            | some k2 =>
              simp only [hdel, Kernel.applyMsg]
              exact ⟨_, _, _, (applyMsg_delRule_sublist hdel).1, rfl⟩

theorem countUserData_eq_zero {m : Manager} {chain ud : String}
    (h : ∀ r ∈ m.conn.rules, r.Chain = chain → HasPrefix r.UserData ud = false) :
    countUserData m chain ud = 0 := by
  unfold countUserData
  rw [List.length_eq_zero, List.filter_eq_nil_iff]
  intro r hr hp
  simp only [Bool.and_eq_true, beq_iff_eq] at hp
  have := h r hr hp.1
  rw [hp.2, HasPrefix_self] at this
  exact Bool.noConfusion this

theorem countUserData_append {m m1 : Manager} {rs : List Rule} {r : Rule}
    (h : m1.conn.rules = rs ++ [r]) (hs : rs.Sublist m.conn.rules) (chain ud : String) :
    countUserData m1 chain ud ≤
      countUserData m chain ud + (if r.Chain = chain ∧ r.UserData = ud then 1 else 0) := by
  unfold countUserData
  rw [h, List.filter_append, List.length_append]
  have h1 := (hs.filter (fun r => r.Chain == chain && r.UserData == ud)).length_le
  by_cases hc : r.Chain = chain ∧ r.UserData = ud
  · simp only [hc, and_self, if_true]
    simp only [List.filter_cons, hc.1, hc.2, beq_self_eq_true, Bool.and_self, if_true,
      List.filter_nil, List.length_singleton]
    omega
  · simp only [hc, if_false]
    have : (List.filter (fun r => r.Chain == chain && r.UserData == ud) [r]) = [] := by
      rw [List.filter_eq_nil_iff]
      intro x hx hp
      simp only [List.mem_singleton] at hx
      subst hx
      simp only [Bool.and_eq_true, beq_iff_eq] at hp
      exact hc hp
    rw [this]
    simp only [List.length_nil]
    omega

theorem AllowIP_atMostOne (m : Manager) (name srcIP : String) (port expire : Int)
    (chain : String) (hip : IsDottedQuad srcIP)
    (hok : (AllowIP m name srcIP port expire chain).1 = none)
    (hinv : ∀ ch ud, countUserData m ch ud ≤ 1) :
    ∀ ch ud, countUserData (AllowIP m name srcIP port expire chain).2 ch ud ≤ 1 := by
  intro ch ud
  rcases AllowIP_ok_cases m name srcIP port expire chain hip hok with
    ⟨hconn, _⟩ | ⟨hnone, rs, h, ex, hsub, hrules⟩
  · have : countUserData (AllowIP m name srcIP port expire chain).2 ch ud =
        countUserData m ch ud := by
      unfold countUserData
      rw [hconn]
    rw [this]
    exact hinv ch ud
  · have hle := countUserData_append hrules hsub ch ud
    by_cases hc : chain = ch ∧ userDataOf name srcIP port = ud
    · obtain ⟨rfl, rfl⟩ := hc
      rw [countUserData_eq_zero hnone] at hle
      simpa using hle
    · simp only [hc, if_false, Nat.add_zero] at hle
      exact hle.trans (hinv ch ud)

theorem runCalls_atMostOne (calls : List NftCall) :
    ∀ {m mEnd : Manager}, (∀ ch ud, countUserData m ch ud ≤ 1) →
      (∀ c ∈ calls, c.fromIPv4) → runCalls m calls = some mEnd →
      ∀ ch ud, countUserData mEnd ch ud ≤ 1 := by
  induction calls with
  | nil =>
    intro m mEnd hinv _ hrun
    simp only [runCalls, Option.some.injEq] at hrun
    subst hrun
    exact hinv
  | cons c rest ih =>
    intro m mEnd hinv hwf hrun
    simp only [runCalls] at hrun
    cases hres : (c.run m).1 with
    | some err => rw [hres] at hrun; simp at hrun
    | none =>
      rw [hres] at hrun
      simp only at hrun
      refine ih ?_ (fun c hc => hwf c (List.mem_cons_of_mem _ hc)) hrun
      have hc := hwf c (List.mem_cons_self _ _)
      cases c with
      | allow name srcIP port expire chain =>
        exact AllowIP_atMostOne m name srcIP port expire chain hc hres hinv
      | revoke name ip port chain =>
        intro ch ud
        exact (countUserData_le_of_sublist (RevokeIP_sublist m name ip port chain) ch ud).trans
          (hinv ch ud)

theorem handleKnock_cfg {s s1 : KnockServer} {nft nft1 : Manager} {a : String} {port : Int}
    {g st : Duration} {now : Time} {acts : List Action}
    (h : handleKnock s nft a port g st now = some (s1, nft1, acts)) : s1.cfg = s.cfg := by
  unfold handleKnock at h
  simp only at h
  split at h
  · simp at h
  · split_ifs at h <;>
      simp only [Option.some.injEq, Prod.mk.injEq] at h <;>
      obtain ⟨rfl, _⟩ := h <;> rfl

/-- For a service whose allow port is not a knock port, dispatching packets of one source
to knock ports is feeding them to `handleKnock` with the configured grant duration. -/
theorem serve_eq_knockAll (a : String) (st : Duration) :
    ∀ (evs : List (Manager × Int × Time)) (s : KnockServer),
      (s.cfg.AllowPort : Int) ∉ s.cfg.KnockPorts →
      (∀ e ∈ evs, e.2.1 ∈ s.cfg.KnockPorts) →
      serve s (evs.map fun e => (e.1, (⟨a, e.2.1, e.2.2⟩ : Packet))) =
        knockAll s a (secondsToDuration s.cfg.ExpireSeconds) st evs := by
  intro evs
  induction evs with
  | nil => intro s _ _; rfl
  | cons e rest ih =>
    intro s hallow hports
    obtain ⟨nft, port, now⟩ := e
    have hmem : port ∈ s.cfg.KnockPorts := hports (nft, port, now) (List.mem_cons_self _ _)
    have hne : port ≠ (s.cfg.AllowPort : Int) := fun h => hallow (h ▸ hmem)
    have hk : contains s.cfg.KnockPorts port = true := (contains_iff _ _).mpr hmem
    have hd : dispatch s nft ⟨a, port, now⟩ =
        handleKnock s nft a port (secondsToDuration s.cfg.ExpireSeconds) st now :=
      dispatch_knock s nft ⟨a, port, now⟩ hne hk
    simp only [List.map_cons, serve_cons_eq, hd, knockAll]
    cases hres : handleKnock s nft a port (secondsToDuration s.cfg.ExpireSeconds) st now with
    | none => rfl
    | some r =>
      obtain ⟨s1, nft1, acts⟩ := r
      have hcfg := handleKnock_cfg hres
      simp only
      rw [ih s1 (by rw [hcfg]; exact hallow)
        (fun e he => by rw [hcfg]; exact hports e (List.mem_cons_of_mem _ he)), hcfg]

/-! ## Setting up the main chain -/

theorem CreateAllowChain_ok {m m1 : Manager} {name : String} {port : Int} {c : String}
    (h : CreateAllowChain m name port = (.ok c, m1)) :
    m1.conn.rules =
        ⟨mainChainName, m.conn.nextHandle, jumpExprs name port, "jump-" ++ (name ++ "_allow")⟩ ::
          m.conn.rules ∧
      m1.blockedPorts = m.blockedPorts := by
  unfold CreateAllowChain at h
  simp only at h
  split_ifs at h with hdown
  · simp at h
  · simp only [Kernel.Flush, hdown, if_false, Bool.false_eq_true, Kernel.applyAll,
      Kernel.applyMsg, Prod.mk.injEq, Except.ok.injEq] at h
    obtain ⟨_, rfl⟩ := h
    exact ⟨rfl, rfl⟩

theorem AddBlockRule_ok {m : Manager} {name : String} {port : Int}
    (h : (AddBlockRule m name port).1 = none) :
    (m.blockedPorts port = true ∧ AddBlockRule m name port = (none, m)) ∨
    (m.blockedPorts port = false ∧
      (AddBlockRule m name port).2.conn.rules =
        m.conn.rules ++ [⟨mainChainName, m.conn.nextHandle, dropExprs 6 port, ""⟩,
          ⟨mainChainName, m.conn.nextHandle + 1, dropExprs 17 port, ""⟩] ∧
      (AddBlockRule m name port).2.blockedPorts =
        fun p => if p = port then true else m.blockedPorts p) := by
  unfold AddBlockRule at h ⊢
  simp only at h ⊢
  cases hb : m.blockedPorts port with
  | true => left; simp [hb]
  | false =>
    right
    simp only [hb, Bool.false_eq_true, if_false] at h ⊢
    by_cases hdown : m.conn.down = true
    · simp [Kernel.Flush, hdown] at h
    · simp only [Kernel.Flush, hdown, if_false, Bool.false_eq_true, Kernel.applyAll,
        Kernel.applyMsg, List.append_assoc, List.singleton_append]
      exact ⟨trivial, rfl, trivial⟩

theorem mainChain_cons (m m1 : Manager) (r : Rule) (h : m1.conn.rules = r :: m.conn.rules)
    (hr : r.Chain = mainChainName) : mainChain m1 = r :: mainChain m := by
  unfold mainChain
  rw [h, List.filter_cons]
  simp [hr]

theorem mainChain_append (m m1 : Manager) (r1 r2 : Rule)
    (h : m1.conn.rules = m.conn.rules ++ [r1, r2])
    (h1 : r1.Chain = mainChainName) (h2 : r2.Chain = mainChainName) :
    mainChain m1 = mainChain m ++ [r1, r2] := by
  unfold mainChain
  rw [h, List.filter_append]
  simp [h1, h2, List.filter_cons]

theorem JumpsFirst_cons {l : List Rule} {r : Rule} (h : JumpsFirst l)
    (hj : r.isJump = true) (hd : r.isDrop = false) : JumpsFirst (r :: l) := by
  obtain ⟨jumps, drops, rfl, h1, h2⟩ := h
  refine ⟨r :: jumps, drops, rfl, ?_, h2⟩
  intro x hx
  rcases List.mem_cons.mp hx with rfl | hx
  · exact ⟨hj, hd⟩
  · exact h1 x hx

theorem JumpsFirst_append {l : List Rule} {r1 r2 : Rule} (h : JumpsFirst l)
    (h1 : r1.isJump = false ∧ r1.isDrop = true) (h2 : r2.isJump = false ∧ r2.isDrop = true) :
    JumpsFirst (l ++ [r1, r2]) := by
  obtain ⟨jumps, drops, rfl, hj, hd⟩ := h
  refine ⟨jumps, drops ++ [r1, r2], by rw [List.append_assoc], hj, ?_⟩
  intro x hx
  rcases List.mem_append.mp hx with hx | hx
  · exact hd x hx
  · simp only [List.mem_cons, List.mem_singleton, List.not_mem_nil, or_false] at hx
    rcases hx with rfl | rfl
    · exact h1
    · exact h2

/-- In jump rules followed by drop rules, every jump rule stands before every drop
rule. -/
theorem JumpsFirst_index {l : List Rule} (h : JumpsFirst l) (i j : Nat) (hi : i < l.length)
    (hj : j < l.length) (hjump : l[i].isJump = true) (hdrop : l[j].isDrop = true) : i < j := by
  obtain ⟨jumps, drops, rfl, h1, h2⟩ := h
  have hi1 : i < jumps.length := by
    by_contra hge
    have hmem : (jumps ++ drops)[i] ∈ drops := by
      rw [List.getElem_append_right (by omega)]
      exact List.getElem_mem _
    have := (h2 _ hmem).1
    rw [hjump] at this
    exact Bool.noConfusion this
  have hj1 : jumps.length ≤ j := by
    by_contra hlt
    have hmem : (jumps ++ drops)[j] ∈ jumps := by
      rw [List.getElem_append_left (by omega)]
      exact List.getElem_mem _
    have := (h1 _ hmem).2
    rw [hdrop] at this
    exact Bool.noConfusion this
  omega

theorem installed_mono {l l1 : List Rule} (h : ∀ r ∈ l, r ∈ l1) (c : SetupCall)
    (hc : c.installed l) : c.installed l1 := by
  cases c with
  | createAllowChain name port =>
    obtain ⟨r, hr, he⟩ := hc
    exact ⟨r, h r hr, he⟩
  | addBlockRule name port =>
    obtain ⟨⟨r, hr, he⟩, ⟨r2, hr2, he2⟩⟩ := hc
    exact ⟨⟨r, h r hr, he⟩, ⟨r2, h r2 hr2, he2⟩⟩

/-- One successful set-up call keeps the invariant, keeps the rules of the main chain and
installs its own. -/
theorem SetupInv_step {m m1 : Manager} (c : SetupCall) (hinv : SetupInv m)
    (hrun : c.run m = some m1) :
    SetupInv m1 ∧ (∀ r ∈ mainChain m, r ∈ mainChain m1) ∧ c.installed (mainChain m1) := by
  cases c with
  | createAllowChain name port =>
    simp only [SetupCall.run] at hrun
    cases hres : CreateAllowChain m name port with
    | mk res m2 =>
      rw [hres] at hrun
      cases res with
      | error e => simp at hrun
      | ok ch =>
        simp only [Option.some.injEq] at hrun
        subst hrun
        obtain ⟨hrules, hblocked⟩ := CreateAllowChain_ok hres
        have hmain := mainChain_cons m m2 _ hrules rfl
        have hsub : ∀ r ∈ mainChain m, r ∈ mainChain m2 := by
          intro r hr
          rw [hmain]
          exact List.mem_cons_of_mem _ hr
        refine ⟨⟨?_, ?_⟩, hsub, ?_⟩
        · rw [hmain]
          exact JumpsFirst_cons hinv.1 (by simp [Rule.isJump, jumpExprs])
            (by simp [Rule.isDrop, jumpExprs])
        · intro p hp
          rw [hblocked] at hp
          obtain ⟨⟨r, hr, he⟩, ⟨r2, hr2, he2⟩⟩ := hinv.2 p hp
          exact ⟨⟨r, hsub r hr, he⟩, ⟨r2, hsub r2 hr2, he2⟩⟩
        · rw [hmain]
          exact ⟨_, List.mem_cons_self _ _, rfl⟩
  | addBlockRule name port =>
    simp only [SetupCall.run] at hrun
    cases hres : AddBlockRule m name port with
    | mk err m2 =>
      rw [hres] at hrun
      cases err with
      | some e => simp at hrun
      | none =>
        simp only [Option.some.injEq] at hrun
        subst hrun
        have h1 : (AddBlockRule m name port).1 = none := by rw [hres]
        rcases AddBlockRule_ok h1 with ⟨hb, heq⟩ | ⟨hb, hrules, hblocked⟩
        · rw [hres] at heq
          simp only [Prod.mk.injEq, true_and] at heq
          subst heq
          exact ⟨hinv, fun r hr => hr, hinv.2 port hb⟩
        · rw [hres] at hrules hblocked
          simp only at hrules hblocked
          have hmain := mainChain_append m m2 _ _ hrules rfl rfl
          have hsub : ∀ r ∈ mainChain m, r ∈ mainChain m2 := by
            intro r hr
            rw [hmain]
            exact List.mem_append_left _ hr
          have hnew : (∃ r ∈ mainChain m2, r.Exprs = dropExprs 6 port) ∧
              (∃ r ∈ mainChain m2, r.Exprs = dropExprs 17 port) := by
            rw [hmain]
            exact ⟨⟨_, List.mem_append_right _ (List.mem_cons_self _ _), rfl⟩,
              ⟨_, List.mem_append_right _ (List.mem_cons_of_mem _ (List.mem_cons_self _ _)),
                rfl⟩⟩
          refine ⟨⟨?_, ?_⟩, hsub, hnew⟩
          · rw [hmain]
            exact JumpsFirst_append hinv.1
              ⟨by simp [Rule.isJump, dropExprs], by simp [Rule.isDrop, dropExprs]⟩
              ⟨by simp [Rule.isJump, dropExprs], by simp [Rule.isDrop, dropExprs]⟩
          · intro p hp
            rw [hblocked] at hp
            by_cases hpp : p = port
            · subst hpp
              exact hnew
            · simp only [hpp, if_false] at hp
              obtain ⟨⟨r, hr, he⟩, ⟨r2, hr2, he2⟩⟩ := hinv.2 p hp
              exact ⟨⟨r, hsub r hr, he⟩, ⟨r2, hsub r2 hr2, he2⟩⟩

theorem SetupInv_run (calls : List SetupCall) :
    ∀ {m mEnd : Manager}, SetupInv m → runSetup m calls = some mEnd →
      SetupInv mEnd ∧ (∀ r ∈ mainChain m, r ∈ mainChain mEnd) ∧
        ∀ c ∈ calls, c.installed (mainChain mEnd) := by
  induction calls with
  | nil =>
    intro m mEnd hinv hrun
    simp only [runSetup, Option.some.injEq] at hrun
    subst hrun
    exact ⟨hinv, fun r hr => hr, fun c hc => by simp at hc⟩
  | cons c rest ih =>
    intro m mEnd hinv hrun
    simp only [runSetup] at hrun
    cases hstep : c.run m with
    | none => rw [hstep] at hrun; simp at hrun
    | some m1 =>
      rw [hstep] at hrun
      simp only at hrun
      obtain ⟨hinv1, hsub1, hinst1⟩ := SetupInv_step c hinv hstep
      obtain ⟨hinvE, hsubE, hinstE⟩ := ih hinv1 hrun
      refine ⟨hinvE, fun r hr => hsubE r (hsub1 r hr), ?_⟩
      intro c0 hc0
      rcases List.mem_cons.mp hc0 with rfl | hc0
      · exact installed_mono hsubE _ hinst1
      · exact hinstE c0 hc0

theorem SetupInv_NewManager {k : Kernel} {m0 : Manager} (h : NewManager k = some m0) :
    SetupInv m0 := by
  unfold NewManager at h
  split_ifs at h
  simp only [Option.some.injEq] at h
  subst h
  refine ⟨⟨[], [], rfl, by simp, by simp⟩, ?_⟩
  intro p hp
  simp at hp

/-- A stale record makes `handleKnock` go on as for a source without record: same
manager, same actions, same records of the other sources, and the same record of the
source itself, except that an ignored knock leaves the stale record where it is. -/
theorem handleKnock_stale (s : KnockServer) (nft : Manager) (a : String) (port : Int)
    (g st : Duration) (now : Time) (r : KnockState) (hrec : s.stateMap a = some r)
    (hstale : g < now - r.LastTime) :
    match handleKnock (s.delete a) nft a port g st now with
    | none => handleKnock s nft a port g st now = none
    | some (s0, m1, acts) =>
      ∃ s1, handleKnock s nft a port g st now = some (s1, m1, acts) ∧
        (∀ b, b ≠ a → s1.stateMap b = s.stateMap b) ∧
        (s1.stateMap a = s0.stateMap a ∨ (s0.stateMap a = none ∧ s1.stateMap a = some r)) := by
  have hl1 : loadState s a g now = ⟨0, 0, 0⟩ := loadState_stale s a g now r hrec hstale
  have hl2 : loadState (s.delete a) a g now = ⟨0, 0, 0⟩ :=
    loadState_fresh _ a g now (delete_self s a)
  have hcfg : (s.delete a).cfg = s.cfg := rfl
  cases hget : s.cfg.KnockPorts[0]? with
  | none =>
    have h1 : handleKnock (s.delete a) nft a port g st now = none := by
      unfold handleKnock
      simp only [hl2, hcfg, hget]
    have h2 : handleKnock s nft a port g st now = none := by
      unfold handleKnock
      simp only [hl1, hget]
    rw [h1]
    exact h2
  | some e =>
    have hget1 : s.cfg.KnockPorts[(loadState s a g now).SeqIndex]? = some e := by
      rw [hl1]; exact hget
    have hget2 : (s.delete a).cfg.KnockPorts[(loadState (s.delete a) a g now).SeqIndex]? =
        some e := by
      rw [hl2]; exact hget
    by_cases hpe : port = e
    · subst hpe
      by_cases hn : 0 + 1 = s.cfg.KnockPorts.length
      · obtain ⟨acts1, h1, _⟩ := handleKnock_complete (s.delete a) nft a port g st now hget2
          (by rw [hl2]; exact hn)
        obtain ⟨acts2, h2, _⟩ := handleKnock_complete s nft a port g st now hget1
          (by rw [hl1]; exact hn)
        have hacts : acts2 = acts1 := by
          have h1' := h1
          unfold handleKnock at h1' h2
          simp only [hl1, hl2, hcfg, hget, ne_eq, not_true_eq_false, if_false, hn, if_true,
            Option.some.injEq, Prod.mk.injEq] at h1' h2
          rw [← h1'.2.2, ← h2.2.2]
          rfl
        rw [h1]
        simp only
        subst hacts
        exact ⟨_, h2, fun b hb => store_other s a b _ hb,
          Or.inl (by rw [store_self, store_self])⟩
      · have h1 := handleKnock_step (s.delete a) nft a port g st now hget2
          (by rw [hl2]; exact hn)
        have h2 := handleKnock_step s nft a port g st now hget1 (by rw [hl1]; exact hn)
        rw [h1]
        simp only
        rw [hl2]
        rw [hl1] at h2
        exact ⟨_, h2, fun b hb => store_other s a b _ hb,
          Or.inl (by rw [store_self, store_self])⟩
    · have h1 := handleKnock_ignored (s.delete a) nft a port g st now e hget2 hpe
        (by rw [hl2])
      have h2 := handleKnock_ignored s nft a port g st now e hget1 hpe (by rw [hl1])
      rw [h1]
      simp only
      exact ⟨s, h2, fun _ _ => rfl, Or.inr ⟨delete_self s a, hrec⟩⟩

/-! ## The claims -/

/-- C1: starting from the empty state map, handling any sequence of packets never
panics and leaves every stored record with `0 ≤ SeqIndex < len(KnockPorts)`; in such a
state the lookup `KnockPorts[SeqIndex]` of a further `handleKnock` call is in range,
whatever the packet. -/
theorem C1_seq_index_in_range (cfg : ServiceConfig) (chain : String)
    (hne : cfg.KnockPorts ≠ []) (events : List (Manager × Packet)) :
    ∃ s out, serve (newServer cfg chain) events = some (s, out) ∧
      (∀ a r, s.stateMap a = some r →
        0 ≤ r.SeqIndex ∧ r.SeqIndex < cfg.KnockPorts.length) ∧
      (∀ a g now, (loadState s a g now).SeqIndex < cfg.KnockPorts.length) ∧
      (∀ nft a port g st now, (handleKnock s nft a port g st now).isSome = true) := by
  obtain ⟨s, out, hs, hok, hcfg⟩ := serve_SeqOK events (SeqOK_newServer cfg chain)
  have hcfg2 : s.cfg = cfg := hcfg
  have hne2 : s.cfg.KnockPorts ≠ [] := by rw [hcfg2]; exact hne
  refine ⟨s, out, hs, ?_, ?_, ?_⟩
  · intro a r har
    have := hok a r har
    rw [hcfg2] at this
    exact ⟨Nat.zero_le _, this⟩
  · intro a g now
    have := loadState_lt hok hne2 a g now
    rw [hcfg2] at this
    exact this
  · intro nft a port g st now
    obtain ⟨s1, nft1, acts, h1, _, _⟩ := handleKnock_SeqOK hok hne2 nft a port g st now
    simp [h1]

theorem C1_seq_index_in_range_witness :
    cfgS.KnockPorts ≠ [] ∧
    ∃ s out, serve (newServer cfgS "S_allow")
        [(nft0, ⟨"10.0.0.5", 1000, 1⟩), (nft0, ⟨"10.0.0.5", 2000, 2⟩)] = some (s, out) ∧
      (∀ a r, s.stateMap a = some r →
        0 ≤ r.SeqIndex ∧ r.SeqIndex < cfgS.KnockPorts.length) ∧
      (∀ a g now, (loadState s a g now).SeqIndex < cfgS.KnockPorts.length) ∧
      (∀ nft a port g st now, (handleKnock s nft a port g st now).isSome = true) :=
  ⟨by decide, C1_seq_index_in_range cfgS "S_allow" (by decide) _⟩

/-- C2: the firewall allow operation is invoked for a source only while a packet of that
source is handled which ends a run `w` of its packets (allow-port packets left aside)
that went to the knock sequence in order, no other knock-port or irrelevant-port packet
of the source in between, consecutive ones at most the grant duration apart. -/
theorem C2_allow_only_after_full_sequence (cfg : ServiceConfig) (chain : String)
    (pre : List (Manager × Packet)) (nft : Manager) (p : Packet)
    (hclock : ClockMonotone (pre ++ [(nft, p)]))
    (name a : String) (port : Int)
    (hcall : (name, a, port) ∈ allowCallsAt cfg chain pre nft p) :
    a = p.srcIP ∧
    ∃ w, w <:+ history cfg a (pre.map (fun e => e.2) ++ [p]) ∧
      w.getLast? = some p ∧
      w.map (fun q => q.dstPort) = cfg.KnockPorts ∧
      Within (secondsToDuration cfg.ExpireSeconds) w := by
  unfold ClockMonotone at hclock
  rw [List.pairwise_append] at hclock
  obtain ⟨hpre, _, hlast⟩ := hclock
  obtain ⟨s, out, hs, hfin⟩ := KnockInv_serve pre (KnockInv_newServer cfg chain
    (match pre.head? with | none => p.now | some e => e.2.now)) hpre (by
      intro e he
      cases pre with
      | nil => simp at he
      | cons e0 rest =>
        simp only [List.head?_cons]
        rcases List.mem_cons.mp he with h | h
        · rw [h]
        · exact (List.pairwise_cons.mp hpre).1 e h)
  have hinv := hfin p.now (by
      cases pre with
      | nil => simp
      | cons e0 rest =>
        simp only [List.head?_cons]
        exact hlast e0 (List.mem_cons_self _ _) (nft, p) (List.mem_singleton_self _))
    (fun e he => hlast e he (nft, p) (List.mem_singleton_self _))
  obtain ⟨s1, nft1, acts, hd, _, hcalls⟩ := KnockInv_dispatch hinv (le_refl _) nft
  simp only [allowCallsAt, hs, hd] at hcall
  obtain ⟨hc, w, hw, hl⟩ := hcalls _ hcall
  simp only [Prod.mk.injEq, List.nil_append] at hc hw
  obtain ⟨hsuf, hmap, hwithin⟩ := hw
  refine ⟨hc.2.1, w, ?_, hl, ?_, hwithin⟩
  · rw [hc.2.1]
    exact hsuf
  · rw [hmap, List.take_length]

theorem C2_allow_only_after_full_sequence_witness :
    ClockMonotone ([(nft0, ⟨"10.0.0.5", 1000, 1⟩), (nft0, ⟨"10.0.0.5", 2000, 2⟩)] ++
      [(nft0, (⟨"10.0.0.5", 3000, 3⟩ : Packet))]) ∧
    ("S", "10.0.0.5", (22 : Int)) ∈ allowCallsAt cfgS "S_allow"
      [(nft0, ⟨"10.0.0.5", 1000, 1⟩), (nft0, ⟨"10.0.0.5", 2000, 2⟩)] nft0
      ⟨"10.0.0.5", 3000, 3⟩ ∧
    ("10.0.0.5" = (⟨"10.0.0.5", 3000, 3⟩ : Packet).srcIP ∧
    ∃ w, w <:+ history cfgS "10.0.0.5"
        (([(nft0, ⟨"10.0.0.5", 1000, 1⟩), (nft0, ⟨"10.0.0.5", 2000, 2⟩)] :
          List (Manager × Packet)).map (fun e => e.2) ++ [⟨"10.0.0.5", 3000, 3⟩]) ∧
      w.getLast? = some ⟨"10.0.0.5", 3000, 3⟩ ∧
      w.map (fun q => q.dstPort) = cfgS.KnockPorts ∧
      Within (secondsToDuration cfgS.ExpireSeconds) w) :=
  ⟨by decide, by decide,
    C2_allow_only_after_full_sequence cfgS "S_allow" _ nft0 _ (by decide) "S" "10.0.0.5" 22
      (by decide)⟩

/-- C3: for a source with no record, knocking the ports of the sequence in order, each
knock at most the grant duration after the one before, makes exactly one allow call, on
the last knock, for (service name, source, allow port), and none on the earlier knocks;
afterwards the record has `SeqIndex = 0` and `AllowedUntil` = time of the last knock plus
the grant duration.  When the allow port is not a knock port, the dispatcher run on those
packets, with the configured grant duration, is this very run. -/
theorem C3_completion (s : KnockServer) (a : String) (g st : Duration)
    (evs : List (Manager × Int × Time))
    (hnone : s.stateMap a = none) (hne : s.cfg.KnockPorts ≠ [])
    (hports : evs.map (fun e => e.2.1) = s.cfg.KnockPorts)
    (htimes : List.Chain' (fun e1 e2 => e2.2.2 - e1.2.2 ≤ g) evs) :
    ∃ s1 out t, knockAll s a g st evs = some (s1, out) ∧
      evs.getLast?.map (fun e => e.2.2) = some t ∧
      out.map allowCalls =
        List.replicate (s.cfg.KnockPorts.length - 1) [] ++
          [[(s.cfg.Name, a, (s.cfg.AllowPort : Int))]] ∧
      s1.stateMap a = some ⟨0, t, t + g⟩ ∧
      ((s.cfg.AllowPort : Int) ∉ s.cfg.KnockPorts →
        g = secondsToDuration s.cfg.ExpireSeconds →
        serve s (evs.map fun e => (e.1, (⟨a, e.2.1, e.2.2⟩ : Packet))) = some (s1, out)) := by
  cases evs with
  | nil =>
    simp only [List.map_nil] at hports
    exact absurd hports.symm hne
  | cons e rest =>
    obtain ⟨s1, out, t, h1, h2, h3, h4, _⟩ :=
      knockAll_completes s.cfg a g st (e :: rest) s 0 e rfl rfl
        (by rw [loadState_fresh s a g _ hnone]) (by simpa using hports) htimes
    refine ⟨s1, out, t, h1, h2, ?_, h4, ?_⟩
    · rw [h3, ← hports]
      simp
    · intro hallow hg
      rw [serve_eq_knockAll a st (e :: rest) s hallow, ← hg, h1]
      intro x hx
      rw [← hports]
      exact List.mem_map_of_mem (fun e => e.2.1) hx

theorem C3_completion_witness :
    (newServer cfgS "S_allow").stateMap "10.0.0.5" = none ∧
    (newServer cfgS "S_allow").cfg.KnockPorts ≠ [] ∧
    ([(nft0, 1000, seconds 1), (nft0, 2000, seconds 2), (nft0, 3000, seconds 3)] :
      List (Manager × Int × Time)).map (fun e => e.2.1) =
        (newServer cfgS "S_allow").cfg.KnockPorts ∧
    List.Chain' (fun e1 e2 => e2.2.2 - e1.2.2 ≤ secondsToDuration 60)
      ([(nft0, 1000, seconds 1), (nft0, 2000, seconds 2), (nft0, 3000, seconds 3)] :
        List (Manager × Int × Time)) ∧
    ∃ s1 out t,
      knockAll (newServer cfgS "S_allow") "10.0.0.5" (secondsToDuration 60)
        (secondsToDuration 5)
        [(nft0, 1000, seconds 1), (nft0, 2000, seconds 2), (nft0, 3000, seconds 3)] =
          some (s1, out) ∧
      ([(nft0, 1000, seconds 1), (nft0, 2000, seconds 2), (nft0, 3000, seconds 3)] :
        List (Manager × Int × Time)).getLast?.map (fun e => e.2.2) = some t ∧
      out.map allowCalls =
        List.replicate ((newServer cfgS "S_allow").cfg.KnockPorts.length - 1) [] ++
          [[((newServer cfgS "S_allow").cfg.Name, "10.0.0.5",
            ((newServer cfgS "S_allow").cfg.AllowPort : Int))]] ∧
      s1.stateMap "10.0.0.5" = some ⟨0, t, t + secondsToDuration 60⟩ ∧
      (((newServer cfgS "S_allow").cfg.AllowPort : Int) ∉
          (newServer cfgS "S_allow").cfg.KnockPorts →
        secondsToDuration 60 = secondsToDuration (newServer cfgS "S_allow").cfg.ExpireSeconds →
        serve (newServer cfgS "S_allow")
          (([(nft0, 1000, seconds 1), (nft0, 2000, seconds 2), (nft0, 3000, seconds 3)] :
            List (Manager × Int × Time)).map
              fun e => (e.1, (⟨"10.0.0.5", e.2.1, e.2.2⟩ : Packet))) = some (s1, out)) :=
  ⟨rfl, by decide, by decide,
    List.Chain'.cons (by decide) (List.Chain'.cons (by decide) (List.chain'_singleton _)),
    C3_completion (newServer cfgS "S_allow") "10.0.0.5" (secondsToDuration 60)
      (secondsToDuration 5) _ rfl (by decide) (by decide)
      (List.Chain'.cons (by decide) (List.Chain'.cons (by decide) (List.chain'_singleton _)))⟩

/-- C4: for a stored record that is not stale and has `SeqIndex > 0`, a knock on a port
other than `KnockPorts[SeqIndex]` stores `SeqIndex = 0` and `LastTime = now` for that
source, keeps `AllowedUntil`, leaves the other records and the firewall controller as
they were, and takes no action (no allow call, no expiry goroutine, hence no revoke). -/
theorem C4_wrong_knock (s : KnockServer) (nft : Manager) (a : String) (port : Int)
    (g st : Duration) (now : Time) (r : KnockState) (e : Int)
    (hrec : s.stateMap a = some r) (hfresh : ¬ (now - r.LastTime > g))
    (hpos : 0 < r.SeqIndex) (hexp : s.cfg.KnockPorts[r.SeqIndex]? = some e)
    (hport : port ≠ e) :
    ∃ s1, handleKnock s nft a port g st now = some (s1, nft, []) ∧
      s1.stateMap a = some ⟨0, now, r.AllowedUntil⟩ ∧
      (∀ b, b ≠ a → s1.stateMap b = s.stateMap b) ∧ s1.cfg = s.cfg := by
  have hld : loadState s a g now = r := loadState_kept s a g now r hrec (by linarith)
  refine ⟨s.store a ⟨0, now, r.AllowedUntil⟩, ?_, store_self _ _ _,
    fun b hb => store_other s a b _ hb, rfl⟩
  have := handleKnock_wrong s nft a port g st now e (by rw [hld]; exact hexp) hport
    (by rw [hld]; exact hpos)
  rw [hld] at this
  exact this

theorem C4_wrong_knock_witness :
    sKnocked.stateMap "10.0.0.5" =
      some ⟨1, 1, 0⟩ ∧
    ¬ ((2 : Time) - (⟨1, 1, 0⟩ : KnockState).LastTime > (60 : Duration)) ∧
    0 < (⟨1, 1, 0⟩ : KnockState).SeqIndex ∧
    sKnocked.cfg.KnockPorts[
      (⟨1, 1, 0⟩ : KnockState).SeqIndex]? = some 2000 ∧
    (3000 : Int) ≠ 2000 ∧
    ∃ s1, handleKnock sKnocked nft0
        "10.0.0.5" 3000 60 5 2 = some (s1, nft0, []) ∧
      s1.stateMap "10.0.0.5" = some ⟨0, 2, (⟨1, 1, 0⟩ : KnockState).AllowedUntil⟩ ∧
      (∀ b, b ≠ "10.0.0.5" → s1.stateMap b =
        sKnocked.stateMap b) ∧
      s1.cfg = sKnocked.cfg :=
  ⟨rfl, by decide, by decide, by decide, by decide,
    C4_wrong_knock sKnocked nft0
      "10.0.0.5" 3000 60 5 2 ⟨1, 1, 0⟩ 2000 rfl (by decide) (by decide) (by decide)
      (by decide)⟩

/-- C5, the defect: source 10.0.0.5 completes the sequence at 3 s and again at 33 s with
a grant of 60 s.  Its record then says `AllowedUntil` = 93 s and one allow rule is in the
sub-chain at 50 s, but the expiry goroutine of the first completion fires at 63 s and
revokes the rule: at 70 s, inside the extended grant, the sub-chain is empty. -/
theorem C5_first_timer_revokes_regrant :
    NewManager ⟨[], 1, false⟩ = some world0.nft ∧
    (world0.receiveAll twoCompletions).map (fun w => w.server.stateMap "10.0.0.5") =
      some (some ⟨0, seconds 33, seconds 93⟩) ∧
    (world0.receiveAll twoCompletions).map (fun w => w.pending.map fun e => e.fireAt) =
      some [seconds 63, seconds 93] ∧
    (rulesAt world0 twoCompletions (seconds 50) "S_allow").map
      (fun rs => rs.map fun r => r.UserData) = some ["service:S,ip:10.0.0.5,port:22"] ∧
    rulesAt world0 twoCompletions (seconds 70) "S_allow" = some [] ∧
    seconds 70 < seconds 93 :=
  ⟨rfl, by decide, by decide, by decide, by decide, by decide⟩

/-- C6: while a grant is active (`AllowedUntil` set and `now < AllowedUntil`), a packet to
a port that is neither the allow port nor a knock port keeps the record of the source,
sets its `SeqIndex` to 0, keeps `LastTime` and `AllowedUntil`, leaves the records of the
other sources as they were, and the dispatcher takes no action on the firewall
controller, whose state is unchanged. -/
theorem C6_probe_during_grant (s : KnockServer) (nft : Manager) (a : String) (port : Int)
    (now : Time) (r : KnockState)
    (hrec : s.stateMap a = some r) (hset : r.AllowedUntil ≠ 0) (hactive : now < r.AllowedUntil)
    (hallow : port ≠ (s.cfg.AllowPort : Int))
    (hknock : contains s.cfg.KnockPorts port = false) :
    (resetStateIfInvalidAccess s a port now).2.stateMap a =
        some ⟨0, r.LastTime, r.AllowedUntil⟩ ∧
      (∀ b, b ≠ a → (resetStateIfInvalidAccess s a port now).2.stateMap b = s.stateMap b) ∧
      dispatch s nft ⟨a, port, now⟩ =
        some ((resetStateIfInvalidAccess s a port now).2, nft, []) := by
  have hres : resetStateIfInvalidAccess s a port now =
      (true, s.store a ⟨0, r.LastTime, r.AllowedUntil⟩) := by
    unfold resetStateIfInvalidAccess
    simp only [hallow, hknock, if_false, Bool.false_eq_true, hrec]
    have h1 : IsZero r.AllowedUntil = false := by simp [IsZero, hset]
    have h2 : After now r.AllowedUntil = false := by
      simp only [After, decide_eq_false_iff_not]
      linarith
    simp [h1, h2]
  refine ⟨?_, ?_, ?_⟩
  · rw [hres]; exact store_self _ _ _
  · intro b hb; rw [hres]; exact store_other s a b _ hb
  · exact dispatch_other s nft ⟨a, port, now⟩ hallow hknock

theorem C6_probe_during_grant_witness :
    sGranted.stateMap "10.0.0.5" =
      some ⟨1, 5, 63⟩ ∧
    (⟨1, 5, 63⟩ : KnockState).AllowedUntil ≠ 0 ∧
    (10 : Time) < (⟨1, 5, 63⟩ : KnockState).AllowedUntil ∧
    (9999 : Int) ≠ (sGranted.cfg.AllowPort : Int) ∧
    contains sGranted.cfg.KnockPorts 9999 =
      false ∧
    ((resetStateIfInvalidAccess sGranted
        "10.0.0.5" 9999 10).2.stateMap "10.0.0.5" = some ⟨0, 5, 63⟩ ∧
      (∀ b, b ≠ "10.0.0.5" →
        (resetStateIfInvalidAccess sGranted
          "10.0.0.5" 9999 10).2.stateMap b =
        sGranted.stateMap b) ∧
      dispatch sGranted nft0
          ⟨"10.0.0.5", 9999, 10⟩ =
        some ((resetStateIfInvalidAccess
          sGranted "10.0.0.5" 9999 10).2,
          nft0, [])) :=
  ⟨rfl, by decide, by decide, by decide, by decide,
    C6_probe_during_grant sGranted nft0
      "10.0.0.5" 9999 10 ⟨1, 5, 63⟩ rfl (by decide) (by decide) (by decide) (by decide)⟩

/-- C7 fails as stated: source 10.0.0.5 completes the sequence at 3 s (grant until 63 s)
and sends a packet to the unrelated port 9999 at exactly 63 s, the instant
`now = AllowedUntil`; its record is not deleted, only reset. -/
theorem C7_counterexample :
    recordAfter cfgS "S_allow" [pkt 1000 1, pkt 2000 2, pkt 3000 3] "10.0.0.5" =
      some ⟨0, seconds 3, seconds 63⟩ ∧
    seconds 63 ≥ (⟨0, seconds 3, seconds 63⟩ : KnockState).AllowedUntil ∧
    (9999 : Int) ≠ (cfgS.AllowPort : Int) ∧ contains cfgS.KnockPorts 9999 = false ∧
    recordAfter cfgS "S_allow" [pkt 1000 1, pkt 2000 2, pkt 3000 3, pkt 9999 63]
      "10.0.0.5" = some ⟨0, seconds 3, seconds 63⟩ := by
  decide

/-- C7, amended: for a packet to a port that is neither the allow port nor a knock port,
`resetStateIfInvalidAccess` deletes the record of the source when `AllowedUntil` is unset
or `now` is strictly after `AllowedUntil`, leaving the other records as they were; at the
instant `now = AllowedUntil` of a set grant the record is kept with `SeqIndex = 0`; and
when the source has no record the server is unchanged. -/
theorem C7_probe_without_grant (s : KnockServer) (a : String) (port : Int) (now : Time)
    (hallow : port ≠ (s.cfg.AllowPort : Int))
    (hknock : contains s.cfg.KnockPorts port = false) :
    (∀ r, s.stateMap a = some r → (r.AllowedUntil = 0 ∨ r.AllowedUntil < now) →
      (resetStateIfInvalidAccess s a port now).2.stateMap a = none ∧
      ∀ b, b ≠ a → (resetStateIfInvalidAccess s a port now).2.stateMap b = s.stateMap b) ∧
    (∀ r, s.stateMap a = some r → r.AllowedUntil ≠ 0 → now = r.AllowedUntil →
      (resetStateIfInvalidAccess s a port now).2.stateMap a =
        some ⟨0, r.LastTime, r.AllowedUntil⟩) ∧
    (s.stateMap a = none → (resetStateIfInvalidAccess s a port now).2 = s) := by
  refine ⟨?_, ?_, ?_⟩
  · intro r hrec hexp
    have hres : resetStateIfInvalidAccess s a port now = (true, s.delete a) := by
      unfold resetStateIfInvalidAccess
      simp only [hallow, hknock, if_false, Bool.false_eq_true, hrec]
      rcases hexp with h | h
      · simp [IsZero, h]
      · simp [After, h]
    rw [hres]
    exact ⟨delete_self s a, fun b hb => delete_other s a b hb⟩
  · intro r hrec hset hnow
    have hres : resetStateIfInvalidAccess s a port now =
        (true, s.store a ⟨0, r.LastTime, r.AllowedUntil⟩) := by
      unfold resetStateIfInvalidAccess
      simp only [hallow, hknock, if_false, Bool.false_eq_true, hrec]
      simp [IsZero, After, hset, hnow]
    rw [hres]
    exact store_self _ _ _
  · intro hnone
    unfold resetStateIfInvalidAccess
    simp only [hallow, hknock, if_false, Bool.false_eq_true, hnone]

theorem C7_probe_without_grant_witness :
    (9999 : Int) ≠ (sGranted.cfg.AllowPort : Int) ∧
    contains sGranted.cfg.KnockPorts 9999 = false ∧
    sGranted.stateMap "10.0.0.5" = some ⟨1, 5, 63⟩ ∧
    (⟨1, 5, 63⟩ : KnockState).AllowedUntil < (64 : Time) ∧
    (resetStateIfInvalidAccess sGranted "10.0.0.5" 9999 64).2.stateMap "10.0.0.5" = none :=
  ⟨by decide, by decide, rfl, by decide,
    ((C7_probe_without_grant sGranted "10.0.0.5" 9999 64 (by decide) (by decide)).1
      ⟨1, 5, 63⟩ rfl (Or.inr (by decide))).1⟩

/-- C8: in a state reached from the empty state map under a clock that never goes back,
a source whose grant is set and unexpired (`now ≤ AllowedUntil`) is not stale for
`handleKnock` (`now - LastTime ≤` grant duration), and handling any packet at `now`
leaves its record in place with an `AllowedUntil` that is not earlier than before; if the
packet is its own and completes the sequence, the new `AllowedUntil` is `now` plus the
grant duration. -/
theorem C8_grant_never_shortened (cfg : ServiceConfig) (chain : String)
    (pre : List (Manager × Packet)) (nft : Manager) (p : Packet)
    (hclock : ClockMonotone (pre ++ [(nft, p)])) (a : String) (r : KnockState)
    (hbefore : recordAfter cfg chain pre a = some r)
    (hset : r.AllowedUntil ≠ 0) (hunexpired : p.now ≤ r.AllowedUntil) :
    p.now - r.LastTime ≤ secondsToDuration cfg.ExpireSeconds ∧
    ∃ r1, recordAfter cfg chain (pre ++ [(nft, p)]) a = some r1 ∧
      r.AllowedUntil ≤ r1.AllowedUntil ∧
      (a = p.srcIP → allowCallsAt cfg chain pre nft p ≠ [] →
        r1.AllowedUntil = p.now + secondsToDuration cfg.ExpireSeconds) := by
  unfold ClockMonotone at hclock
  rw [List.pairwise_append] at hclock
  obtain ⟨hpre, _, hlast⟩ := hclock
  have hp : ∀ e ∈ pre, e.2.now ≤ p.now := fun e he =>
    hlast e he (nft, p) (List.mem_singleton_self _)
  cases hs : serve (newServer cfg chain) pre with
  | none => simp [recordAfter, hs] at hbefore
  | some res =>
    obtain ⟨s, out⟩ := res
    simp only [recordAfter, hs] at hbefore
    have hT0 : ∀ e ∈ pre, (match pre.head? with | none => p.now | some e => e.2.now) ≤ e.2.now := by
      intro e he
      cases pre with
      | nil => simp at he
      | cons e0 rest =>
        simp only [List.head?_cons]
        rcases List.mem_cons.mp he with h | h
        · rw [h]
        · exact (List.pairwise_cons.mp hpre).1 e h
    have hT1 : (match pre.head? with | none => p.now | some e => e.2.now) ≤ p.now := by
      cases pre with
      | nil => simp
      | cons e0 rest =>
        simp only [List.head?_cons]
        exact hp e0 (List.mem_cons_self _ _)
    obtain ⟨hok, hcfg, hfin⟩ := GrantInv_serve pre (SeqOK_newServer cfg chain)
      (GrantInv_newServer cfg chain _ _) hpre hT0 hs
    have hcfg1 : s.cfg = cfg := hcfg
    have hinv : GrantInv (secondsToDuration cfg.ExpireSeconds) p.now s := hfin p.now hT1 hp
    obtain ⟨hLT, hAU⟩ := hinv a r hbefore
    have hAU1 : r.AllowedUntil ≤ r.LastTime + secondsToDuration cfg.ExpireSeconds := by
      rcases hAU with h | h
      · exact absurd h hset
      · exact h
    have hfresh : p.now - r.LastTime ≤ secondsToDuration cfg.ExpireSeconds := by linarith
    refine ⟨hfresh, ?_⟩
    obtain ⟨s1, nft1, acts, hd, _, hother, hself⟩ := dispatch_cases hok nft p
    have hafter : recordAfter cfg chain (pre ++ [(nft, p)]) a = s1.stateMap a := by
      simp only [recordAfter, serve_append, hs, serve_single, hd]
    have hcalls : allowCallsAt cfg chain pre nft p = allowCalls acts := by
      simp only [allowCallsAt, hs, hd]
    rw [hafter, hcalls]
    by_cases ha : a = p.srcIP
    · subst ha
      rw [hcfg1] at hself
      rcases hself with ⟨h, hc⟩ | ⟨r0, h0, hexp, _, _⟩ | ⟨r0, h0, _, _, h, hc⟩ | ⟨k, h, hc⟩ |
        ⟨h, _⟩
      · exact ⟨r, by rw [h, hbefore], le_refl _, fun _ hne => absurd hc hne⟩
      · rw [hbefore] at h0
        simp only [Option.some.injEq] at h0
        subst h0
        rcases hexp with h | h
        · exact absurd h hset
        · linarith
      · rw [hbefore] at h0
        simp only [Option.some.injEq] at h0
        subst h0
        exact ⟨_, h, le_refl _, fun _ hne => absurd hc hne⟩
      · rw [loadState_kept s _ _ p.now r hbefore hfresh] at h
        exact ⟨_, h, le_refl _, fun _ hne => absurd hc hne⟩
      · exact ⟨_, h, by simp only; linarith, fun _ _ => rfl⟩
    · rw [hother a ha]
      exact ⟨r, hbefore, le_refl _, fun h => absurd h ha⟩

theorem C8_grant_never_shortened_witness :
    ClockMonotone ([pkt 1000 1, pkt 2000 2, pkt 3000 3, pkt 1000 31, pkt 2000 32] ++
      [pkt 3000 33]) ∧
    recordAfter cfgS "S_allow" [pkt 1000 1, pkt 2000 2, pkt 3000 3, pkt 1000 31, pkt 2000 32]
      "10.0.0.5" = some ⟨2, seconds 32, seconds 63⟩ ∧
    (⟨2, seconds 32, seconds 63⟩ : KnockState).AllowedUntil ≠ 0 ∧
    (pkt 3000 33).2.now ≤ (⟨2, seconds 32, seconds 63⟩ : KnockState).AllowedUntil ∧
    ((pkt 3000 33).2.now - (⟨2, seconds 32, seconds 63⟩ : KnockState).LastTime ≤
        secondsToDuration cfgS.ExpireSeconds ∧
      ∃ r1, recordAfter cfgS "S_allow"
          ([pkt 1000 1, pkt 2000 2, pkt 3000 3, pkt 1000 31, pkt 2000 32] ++ [pkt 3000 33])
          "10.0.0.5" = some r1 ∧
        (⟨2, seconds 32, seconds 63⟩ : KnockState).AllowedUntil ≤ r1.AllowedUntil ∧
        ("10.0.0.5" = (pkt 3000 33).2.srcIP →
          allowCallsAt cfgS "S_allow"
            [pkt 1000 1, pkt 2000 2, pkt 3000 3, pkt 1000 31, pkt 2000 32]
            (pkt 3000 33).1 (pkt 3000 33).2 ≠ [] →
          r1.AllowedUntil = (pkt 3000 33).2.now + secondsToDuration cfgS.ExpireSeconds)) :=
  ⟨by decide, by decide, by decide, by decide,
    C8_grant_never_shortened cfgS "S_allow" _ (pkt 3000 33).1 (pkt 3000 33).2 (by decide)
      "10.0.0.5" ⟨2, seconds 32, seconds 63⟩ (by decide) (by decide) (by decide)⟩

/-- C9, the defect: `LoadAndValidateConfig`, the loader `main` uses, returns a service
whose `expire_seconds` is absent with `ExpireSeconds = 0`, neither positive nor 300;
`LoadConfig` on the same file content defaults it to 300. -/
theorem C9_LoadAndValidateConfig_no_default :
    LoadAndValidateConfig (.parsed cfgNoExpire) = .ok cfgNoExpire ∧
    cfgNoExpire.Services.map (fun svc => svc.ExpireSeconds) = [0] ∧
    LoadConfig (.parsed cfgNoExpire) =
      .ok ⟨[⟨"S", [1000, 2000, 3000], 22, 300, "eth0", 5⟩]⟩ :=
  ⟨rfl, rfl, rfl⟩

/-- C10 fails as stated: the sub-chain holds the rule for port 220 of the same service
and source, hence no rule with the user data of port 22; two `AllowIP` calls for port 22
both return nil and add nothing, because the user data of the port-220 rule begins with
the text looked for. -/
theorem C10_counterexample :
    (AllowIP nft0 "S" "10.0.0.5" 220 60 "S_allow").1 = none ∧
    countUserData (AllowIP nft0 "S" "10.0.0.5" 220 60 "S_allow").2 "S_allow"
      (userDataOf "S" "10.0.0.5" 22) = 0 ∧
    (AllowIP (AllowIP nft0 "S" "10.0.0.5" 220 60 "S_allow").2
      "S" "10.0.0.5" 22 60 "S_allow").1 = none ∧
    (AllowIP (AllowIP (AllowIP nft0 "S" "10.0.0.5" 220 60 "S_allow").2
      "S" "10.0.0.5" 22 60 "S_allow").2 "S" "10.0.0.5" 22 60 "S_allow").1 = none ∧
    countUserData (AllowIP (AllowIP (AllowIP nft0 "S" "10.0.0.5" 220 60 "S_allow").2
      "S" "10.0.0.5" 22 60 "S_allow").2 "S" "10.0.0.5" 22 60 "S_allow").2 "S_allow"
      (userDataOf "S" "10.0.0.5" 22) = 0 ∧
    IsDottedQuad "10.0.0.5" := by
  decide

/-- C10, amended: two successful `AllowIP` calls for the same (service, IPv4 source, port)
on a sub-chain that held no rule whose user data begins with
`service:<name>,ip:<ip>,port:<port>` leave exactly one rule with that user data in the
sub-chain; and after any sequence of successful `AllowIP` and `RevokeIP` calls on a
freshly initialised controller, every sub-chain holds at most one rule with any given
user data. -/
theorem C10_allow_idempotent :
    (∀ (m : Manager) (name srcIP : String) (port expire : Int) (chain : String),
      IsDottedQuad srcIP →
      (∀ r ∈ m.conn.rules, r.Chain = chain →
        HasPrefix r.UserData (userDataOf name srcIP port) = false) →
      (AllowIP m name srcIP port expire chain).1 = none →
      (AllowIP (AllowIP m name srcIP port expire chain).2 name srcIP port expire chain).1 =
        none →
      countUserData
        (AllowIP (AllowIP m name srcIP port expire chain).2 name srcIP port expire chain).2
        chain (userDataOf name srcIP port) = 1) ∧
    (∀ (k : Kernel) (m0 mEnd : Manager) (calls : List NftCall),
      NewManager k = some m0 → (∀ c ∈ calls, c.fromIPv4) → runCalls m0 calls = some mEnd →
      ∀ (chain name ip : String) (port : Int),
        countUserData mEnd chain (userDataOf name ip port) ≤ 1) := by
  constructor
  · intro m name srcIP port expire chain hip hno h1 h2
    rcases AllowIP_ok_cases m name srcIP port expire chain hip h1 with
      ⟨_, r, hr, hc, hp⟩ | ⟨_, rs, h, ex, hsub, hrules⟩
    · rw [hno r hr hc] at hp
      exact Bool.noConfusion hp
    · have hone : countUserData (AllowIP m name srcIP port expire chain).2 chain
          (userDataOf name srcIP port) = 1 := by
        have hzero : (rs.filter fun r => r.Chain == chain &&
            r.UserData == userDataOf name srcIP port).length = 0 := by
          rw [List.length_eq_zero, List.filter_eq_nil_iff]
          intro r hr hp
          simp only [Bool.and_eq_true, beq_iff_eq] at hp
          have := hno r (hsub.subset hr) hp.1
          rw [hp.2, HasPrefix_self] at this
          exact Bool.noConfusion this
        unfold countUserData
        rw [hrules, List.filter_append, List.length_append, hzero]
        simp
      rcases AllowIP_ok_cases (AllowIP m name srcIP port expire chain).2 name srcIP port expire
        chain hip h2 with ⟨hconn, _⟩ | ⟨hnone, _⟩
      · unfold countUserData at hone ⊢
        rw [hconn]
        exact hone
      · have := hnone ⟨chain, h, ex, userDataOf name srcIP port⟩
          (by rw [hrules]; simp) rfl
        rw [HasPrefix_self] at this
        exact Bool.noConfusion this
  · intro k m0 mEnd calls hinit hwf hrun chain name ip port
    refine runCalls_atMostOne calls ?_ hwf hrun chain _
    intro ch ud
    unfold NewManager at hinit
    split_ifs at hinit
    simp only [Option.some.injEq] at hinit
    subst hinit
    simp [countUserData]

theorem C10_allow_idempotent_witness :
    IsDottedQuad "10.0.0.5" ∧
    (∀ r ∈ nft0.conn.rules, r.Chain = "S_allow" →
      HasPrefix r.UserData (userDataOf "S" "10.0.0.5" 22) = false) ∧
    (AllowIP nft0 "S" "10.0.0.5" 22 60 "S_allow").1 = none ∧
    (AllowIP (AllowIP nft0 "S" "10.0.0.5" 22 60 "S_allow").2
      "S" "10.0.0.5" 22 60 "S_allow").1 = none ∧
    countUserData (AllowIP (AllowIP nft0 "S" "10.0.0.5" 22 60 "S_allow").2
      "S" "10.0.0.5" 22 60 "S_allow").2 "S_allow" (userDataOf "S" "10.0.0.5" 22) = 1 ∧
    NewManager ⟨[], 1, false⟩ = some nft0 ∧
    (∀ c ∈ [NftCall.allow "S" "10.0.0.5" 22 60 "S_allow",
        NftCall.revoke "S" "10.0.0.5" 22 "S_allow",
        NftCall.allow "S" "10.0.0.5" 22 60 "S_allow"], c.fromIPv4) ∧
    (runCalls nft0 [NftCall.allow "S" "10.0.0.5" 22 60 "S_allow",
        NftCall.revoke "S" "10.0.0.5" 22 "S_allow",
        NftCall.allow "S" "10.0.0.5" 22 60 "S_allow"]).isSome = true ∧
    (∀ mEnd, runCalls nft0 [NftCall.allow "S" "10.0.0.5" 22 60 "S_allow",
        NftCall.revoke "S" "10.0.0.5" 22 "S_allow",
        NftCall.allow "S" "10.0.0.5" 22 60 "S_allow"] = some mEnd →
      countUserData mEnd "S_allow" (userDataOf "S" "10.0.0.5" 22) ≤ 1) :=
  ⟨by decide, by decide, by decide, by decide,
    C10_allow_idempotent.1 nft0 "S" "10.0.0.5" 22 60 "S_allow" (by decide) (by decide)
      (by decide) (by decide),
    rfl, by decide, by decide,
    fun mEnd h => C10_allow_idempotent.2 ⟨[], 1, false⟩ nft0 mEnd _ rfl (by decide) h
      "S_allow" "S" "10.0.0.5" 22⟩

/-- C11: after any sequence of successful `CreateAllowChain` and `AddBlockRule` calls on
a freshly initialised controller, every jump rule of the main chain `pkinput` stands
before every drop rule of it; the jump rule of every service set up and the TCP and UDP
drop rules of every port blocked are in the chain, so the jump of a service for its
allow port is evaluated before the drop rules of that port. -/
theorem C11_jump_before_drop (k : Kernel) (calls : List SetupCall) (l : List Rule)
    (hrun : mainChainAfter k calls = some l) :
    (∀ (i j : Nat) (hi : i < l.length) (hj : j < l.length),
      l[i].isJump = true → l[j].isDrop = true → i < j) ∧
    (∀ c ∈ calls, c.installed l) := by
  unfold mainChainAfter at hrun
  cases hinit : NewManager k with
  | none => rw [hinit] at hrun; simp at hrun
  | some m0 =>
    rw [hinit] at hrun
    simp only at hrun
    cases hsetup : runSetup m0 calls with
    | none => rw [hsetup] at hrun; simp at hrun
    | some m =>
      rw [hsetup] at hrun
      simp only [Option.some.injEq] at hrun
      subst hrun
      obtain ⟨hinv, _, hinst⟩ := SetupInv_run calls (SetupInv_NewManager hinit) hsetup
      exact ⟨fun i j hi hj => JumpsFirst_index hinv.1 i j hi hj, hinst⟩

theorem C11_jump_before_drop_witness :
    mainChainAfter ⟨[], 1, false⟩ setupTwoServices = some chainTwoServices ∧
    (∀ (i j : Nat) (hi : i < chainTwoServices.length) (hj : j < chainTwoServices.length),
      chainTwoServices[i].isJump = true → chainTwoServices[j].isDrop = true → i < j) ∧
    (∀ c ∈ setupTwoServices, c.installed chainTwoServices) :=
  ⟨by decide, C11_jump_before_drop ⟨[], 1, false⟩ setupTwoServices chainTwoServices (by decide)⟩

/-- C12: when a knock completes the sequence (it is the expected port and the last
position) and `AllowIP` returns an error, `handleKnock` makes the allow call and starts no
expiry goroutine, yet stores the record as completed: `SeqIndex = 0`, `LastTime = now`,
`AllowedUntil = now +` grant duration.  When `AllowIP` returns nil the same record is
stored and the expiry goroutine is started. -/
theorem C12_allow_failure_on_completion (s : KnockServer) (nft : Manager) (a : String)
    (port : Int) (g st : Duration) (now : Time)
    (hexp : s.cfg.KnockPorts[(loadState s a g now).SeqIndex]? = some port)
    (hlast : (loadState s a g now).SeqIndex + 1 = s.cfg.KnockPorts.length) :
    (∀ err, (AllowIP nft s.cfg.Name a s.cfg.AllowPort s.cfg.ExpireSeconds s.allowChain).1 =
        some err →
      ∃ s1 acts, handleKnock s nft a port g st now =
          some (s1, (AllowIP nft s.cfg.Name a s.cfg.AllowPort s.cfg.ExpireSeconds
            s.allowChain).2, acts) ∧
        acts = [Action.allowIP s.cfg.Name a s.cfg.AllowPort s.cfg.ExpireSeconds s.allowChain] ∧
        spawnedAt now acts = [] ∧
        s1.stateMap a = some ⟨0, now, now + g⟩) ∧
    ((AllowIP nft s.cfg.Name a s.cfg.AllowPort s.cfg.ExpireSeconds s.allowChain).1 = none →
      ∃ s1 acts, handleKnock s nft a port g st now =
          some (s1, (AllowIP nft s.cfg.Name a s.cfg.AllowPort s.cfg.ExpireSeconds
            s.allowChain).2, acts) ∧
        spawnedAt now acts = [⟨now + g, s.cfg.Name, a, s.cfg.AllowPort, s.allowChain⟩] ∧
        s1.stateMap a = some ⟨0, now, now + g⟩) := by
  constructor
  · intro err herr
    refine ⟨s.store a ⟨0, now, now + g⟩,
      [Action.allowIP s.cfg.Name a s.cfg.AllowPort s.cfg.ExpireSeconds s.allowChain],
      ?_, rfl, rfl, store_self _ _ _⟩
    unfold handleKnock
    simp only [hexp]
    simp [hlast, herr]
  · intro hok
    refine ⟨s.store a ⟨0, now, now + g⟩,
      [Action.allowIP s.cfg.Name a s.cfg.AllowPort s.cfg.ExpireSeconds s.allowChain,
        Action.spawnExpiry g s.cfg.Name a s.cfg.AllowPort s.allowChain], ?_, rfl,
      store_self _ _ _⟩
    unfold handleKnock
    simp only [hexp]
    simp [hlast, hok]

theorem C12_allow_failure_on_completion_witness :
    sTwoKnocks.cfg.KnockPorts[(loadState sTwoKnocks "10.0.0.5" 60 3).SeqIndex]? = some 3000 ∧
    (loadState sTwoKnocks "10.0.0.5" 60 3).SeqIndex + 1 = sTwoKnocks.cfg.KnockPorts.length ∧
    (AllowIP nftDown sTwoKnocks.cfg.Name "10.0.0.5" sTwoKnocks.cfg.AllowPort
      sTwoKnocks.cfg.ExpireSeconds sTwoKnocks.allowChain).1 = some "get rules failed" ∧
    ∃ s1 acts, handleKnock sTwoKnocks nftDown "10.0.0.5" 3000 60 5 3 =
        some (s1, (AllowIP nftDown sTwoKnocks.cfg.Name "10.0.0.5" sTwoKnocks.cfg.AllowPort
          sTwoKnocks.cfg.ExpireSeconds sTwoKnocks.allowChain).2, acts) ∧
      acts = [Action.allowIP sTwoKnocks.cfg.Name "10.0.0.5" sTwoKnocks.cfg.AllowPort
        sTwoKnocks.cfg.ExpireSeconds sTwoKnocks.allowChain] ∧
      spawnedAt 3 acts = [] ∧
      s1.stateMap "10.0.0.5" = some ⟨0, 3, 3 + 60⟩ :=
  ⟨by decide, by decide, by decide,
    (C12_allow_failure_on_completion sTwoKnocks nftDown "10.0.0.5" 3000 60 5 3 (by decide)
      (by decide)).1 "get rules failed" (by decide)⟩

/-- C13: `handleKnock` treats a stored record as stale exactly when `now - LastTime` is
strictly greater than the grant duration: then it works on a fresh record with
`SeqIndex = 0` and goes on as for a source without record; otherwise it works on the
stored record.  A knock on the expected port at exactly `LastTime +` grant duration is
progress: the index advances from its stored value (and completes the sequence when that
was the last position). -/
theorem C13_staleness_boundary (s : KnockServer) (nft : Manager) (a : String) (port : Int)
    (g st : Duration) (now : Time) (r : KnockState) (hrec : s.stateMap a = some r) :
    (g < now - r.LastTime →
      loadState s a g now = ⟨0, 0, 0⟩ ∧
      match handleKnock (s.delete a) nft a port g st now with
      | none => handleKnock s nft a port g st now = none
      | some (s0, m1, acts) =>
        ∃ s1, handleKnock s nft a port g st now = some (s1, m1, acts) ∧
          (∀ b, b ≠ a → s1.stateMap b = s.stateMap b) ∧
          (s1.stateMap a = s0.stateMap a ∨
            (s0.stateMap a = none ∧ s1.stateMap a = some r))) ∧
    (now - r.LastTime ≤ g → loadState s a g now = r) ∧
    (now = r.LastTime + g → s.cfg.KnockPorts[r.SeqIndex]? = some port →
      (r.SeqIndex + 1 ≠ s.cfg.KnockPorts.length →
        handleKnock s nft a port g st now =
          some (s.store a ⟨r.SeqIndex + 1, now, r.AllowedUntil⟩, nft, [])) ∧
      (r.SeqIndex + 1 = s.cfg.KnockPorts.length →
        ∃ acts, handleKnock s nft a port g st now =
            some (s.store a ⟨0, now, now + g⟩,
              (AllowIP nft s.cfg.Name a s.cfg.AllowPort s.cfg.ExpireSeconds s.allowChain).2,
              acts) ∧
          allowCalls acts = [(s.cfg.Name, a, (s.cfg.AllowPort : Int))])) := by
  refine ⟨?_, ?_, ?_⟩
  · intro hstale
    exact ⟨loadState_stale s a g now r hrec hstale,
      handleKnock_stale s nft a port g st now r hrec hstale⟩
  · intro hfresh
    exact loadState_kept s a g now r hrec hfresh
  · intro hnow hexp
    have hld : loadState s a g now = r :=
      loadState_kept s a g now r hrec (by rw [hnow]; linarith)
    constructor
    · intro hn
      have := handleKnock_step s nft a port g st now (by rw [hld]; exact hexp)
        (by rw [hld]; exact hn)
      rw [hld] at this
      exact this
    · intro hn
      exact handleKnock_complete s nft a port g st now (by rw [hld]; exact hexp)
        (by rw [hld]; exact hn)

theorem C13_staleness_boundary_witness :
    sKnocked.stateMap "10.0.0.5" = some ⟨1, 1, 0⟩ ∧
    (61 : Time) = (⟨1, 1, 0⟩ : KnockState).LastTime + 60 ∧
    sKnocked.cfg.KnockPorts[(⟨1, 1, 0⟩ : KnockState).SeqIndex]? = some 2000 ∧
    handleKnock sKnocked nft0 "10.0.0.5" 2000 60 5 61 =
      some (sKnocked.store "10.0.0.5" ⟨2, 61, 0⟩, nft0, []) ∧
    (60 : Duration) < (62 : Time) - (⟨1, 1, 0⟩ : KnockState).LastTime ∧
    loadState sKnocked "10.0.0.5" 60 62 = ⟨0, 0, 0⟩ :=
  ⟨rfl, by decide, by decide,
    ((C13_staleness_boundary sKnocked nft0 "10.0.0.5" 2000 60 5 61 ⟨1, 1, 0⟩ rfl).2.2
      (by decide) (by decide)).1 (by decide),
    by decide,
    ((C13_staleness_boundary sKnocked nft0 "10.0.0.5" 2000 60 5 62 ⟨1, 1, 0⟩ rfl).1
      (by decide)).1⟩

end Portknock
